import Mathlib

/-!
# telega-server: framing of messages between the editor and the client library

A shallow embedding of `server/telega-server.c`.  Bytes are natural numbers,
byte strings are lists, the standard streams are byte lists, and the calls the
server makes into the client library are recorded in the state.

The buffer `struct telega_dat` and the two transcoders live in `telega-dat.h` and
`telega-dat.c`, which are not among the sources.  The buffer operations are modelled from
the specification.  The server functions take the transcoders as parameters, so what is
proved of them holds for any transcoder; the codec itself is modelled from the
specification in a section of its own.
-/

namespace Telega

/-! ## Bytes, C strings and `printf` conversions -/

/-- The bytes of an ASCII string literal. -/
def ascii (s : String) : List Nat := s.toList.map Char.toNat

/-- The C string stored at the start of `mem`: the bytes before the first zero byte.
This is what `%s` prints and what a `const char*` parameter denotes. -/
def cstr (mem : List Nat) : List Nat := mem.takeWhile (fun b => b != 0)

/-- The libc `strlen`: the number of bytes before the first zero byte. -/
def strlen (mem : List Nat) : Nat := (cstr mem).length

/-- Digits of `n`, most significant first, pushed in front of `acc`. -/
def decimalAux : Nat → Nat → List Nat → List Nat
  | 0, _, acc => acc
  | fuel + 1, n, acc =>
    if n < 10 then (48 + n) :: acc
    else decimalAux fuel (n / 10) ((48 + n % 10) :: acc)

/-- What `%zu` prints for `n` (also `%d` for a non-negative value). -/
def decimal (n : Nat) : List Nat := decimalAux (n + 1) n []

/-! ## The buffer (`struct telega_dat`) -/

/-- Modelled from the spec: `struct telega_dat` of `telega-dat.h`, which is not among the
sources.  The spec's Buffer tracks an allocated capacity `cap` and a logical end offset
`end_`; `data` is the content of the storage from offset 0 as far as it has been written
(bytes past `end_` are stale), and `freed` records that the storage has been released.
The buffer operations below store within the capacity they have ensured.  The server also
stores into the storage directly: the `fread` of `stdin_loop` is checked against `cap`
where it is modelled (`stdin_fill`), and the `read` of `parse_stdin` is shown to stay
within it. -/
structure telega_dat where
  cap : Nat
  end_ : Nat
  data : List Nat
  freed : Bool
  deriving DecidableEq, Repr

/-- Modelled from the spec: `TDAT_INIT`, the spec's `init()`: an empty buffer of capacity 0. -/
def TDAT_INIT : telega_dat := { cap := 0, end_ := 0, data := [], freed := false }

/-- The logical content of a buffer: its first `end_` bytes. -/
def telega_dat.content (d : telega_dat) : List Nat := d.data.take d.end_

/-- A store of `bs` at offset `off` of a storage. -/
def writeAt (mem : List Nat) (off : Nat) (bs : List Nat) : List Nat :=
  mem.take off ++ bs ++ mem.drop (off + bs.length)

/-- Modelled from the spec: `tdat_ensure` of `telega-dat.c`, the spec's `ensure(min_extra)`:
guarantees `min_extra` free bytes past the logical end; if there are not that many it
reallocates to double the capacity or to what the request needs, whichever is larger, and
keeps the existing bytes.  Allocation is taken to succeed. -/
def tdat_ensure (d : telega_dat) (min_extra : Nat) : telega_dat :=
  if d.end_ + min_extra ≤ d.cap then d
  else { d with cap := max (2 * d.cap) (d.end_ + min_extra) }

/-- Modelled from the spec: `tdat_append` of `telega-dat.c`, the spec's `append(bytes)`:
calls `ensure(len(bytes))`, copies the bytes at the logical end and advances the end. -/
def tdat_append (d : telega_dat) (bs : List Nat) : telega_dat :=
  let d1 := tdat_ensure d bs.length
  { d1 with data := writeAt d1.data d1.end_ bs, end_ := d1.end_ + bs.length }

/-- Modelled from the spec: `tdat_append1` of `telega-dat.c`, which appends the one byte its
argument points to; with `"\0"` it is the spec's `append_terminator()`. -/
def tdat_append1 (d : telega_dat) (b : Nat) : telega_dat := tdat_append d [b]

/-- Modelled from the spec: `tdat_reset` of `telega-dat.h`, the spec's `reset()`: it sets
the logical end to 0; capacity and storage are retained. -/
def tdat_reset (d : telega_dat) : telega_dat := { d with end_ := 0 }

/-- Modelled from the spec: `tdat_drop` of `telega-dat.h`, the spec's `release()`: frees the
backing storage. -/
def tdat_drop (_d : telega_dat) : telega_dat := { cap := 0, end_ := 0, data := [], freed := true }

/-! ## The transcoders, as the server sees them -/

/-- What one conversion call does: the bytes it emits onto the destination buffer, and
whether the source was well-formed (`ok = false` is the spec's ParseError, after which
`out` is the partial output emitted before the error). -/
structure tdat_result where
  out : List Nat
  ok : Bool
  deriving DecidableEq, Repr

/-- A transcoder (`tdat_json_value` or `tdat_plist_value` of `telega-dat.c`, not among the
sources), as a function of the logical content of its source buffer. -/
abbrev transcoder := List Nat → tdat_result

/-- The call `tdat_json_value(&src, &dst)` or `tdat_plist_value(&src, &dst)`: the emitted
bytes are appended to the destination.  The C call is a statement: nothing it might report
about the conversion reaches the caller. -/
def tdat_value (tr : transcoder) (src dst : telega_dat) : telega_dat :=
  tdat_append dst (tr src.content).out

/-! ## `on_error_cb` and `tdlib_loop` -/

/-- State of `tdlib_loop`: its two buffers and what it has written to standard output and
to standard error. -/
structure tdlib_state where
  json_src : telega_dat
  plist_dst : telega_dat
  out : List Nat
  err : List Nat
  deriving DecidableEq, Repr

/-- Lines 79-82 of `tdlib_loop` and 59-61 of `on_error_cb`: the text is appended to the
source buffer, transcoded, and the terminator is appended to the destination.  The result
is the source buffer and the destination buffer as they are when the frame is printed. -/
def convert_text (json : transcoder) (json_src plist_dst : telega_dat) (text : List Nat) :
    telega_dat × telega_dat :=
  let json_src := tdat_append json_src (cstr text)
  let plist_dst := tdat_value json json_src plist_dst
  (json_src, tdat_append1 plist_dst 0)

/-- The function `on_error_cb(errmsg)`; the result is what it writes to standard output. -/
def on_error_cb (json : transcoder) (errmsg : List Nat) : List Nat :=
  let (_, plist_dst) := convert_text json TDAT_INIT TDAT_INIT errmsg
  ascii "error " ++ decimal (strlen plist_dst.data) ++ [10] ++ cstr plist_dst.data ++ [10]

/-- One iteration of the `while (true)` of `tdlib_loop`, `res` being what
`td_json_client_receive(cln, 1)` returned (`none` for NULL). -/
def tdlib_iter (json : transcoder) (s : tdlib_state) (res : Option (List Nat)) : tdlib_state :=
  match res with
  | none => s
  | some r =>
    let (json_src, plist_dst) := convert_text json s.json_src s.plist_dst r
    { json_src := tdat_reset json_src, plist_dst := tdat_reset plist_dst,
      out := s.out ++ (ascii "event " ++ decimal (strlen plist_dst.data) ++ [10]
        ++ cstr plist_dst.data ++ [10]),
      err := s.err ++ ascii "IN JSON: " ++ cstr r ++ [10] }

/-- State of `tdlib_loop` on entry to the loop. -/
def tdlib_init : tdlib_state :=
  { json_src := TDAT_INIT, plist_dst := TDAT_INIT, out := [], err := [] }

/-- The loop of `tdlib_loop` run over the successive results of `td_json_client_receive`.
The loop never exits; a run is observed after finitely many receives. -/
def tdlib_loop (json : transcoder) (rs : List (Option (List Nat))) : tdlib_state :=
  rs.foldl (tdlib_iter json) tdlib_init

/-! ## `stdin_loop` -/

/-- The libc `isspace` in the C locale. -/
def isspace (c : Nat) : Bool := c == 32 || (9 ≤ c && c ≤ 13)

/-- The libc `isdigit`. -/
def isdigit (c : Nat) : Bool := 48 ≤ c && c ≤ 57

/-- The largest `size_t` (a 64-bit platform). -/
def SIZE_MAX : Nat := 2 ^ 64 - 1

/-- The bytes `fgets` stores when it may store at most `n`: up to and including the first
newline. -/
def fgets_line : Nat → List Nat → List Nat
  | 0, _ => []
  | _, [] => []
  | n + 1, c :: cs => if c = 10 then [c] else c :: fgets_line n cs

/-- The libc `fgets(buf, size, stdin)`: `none` (NULL) at end of input, else the line stored
and the rest of the stream. -/
def fgets (size : Nat) (inp : List Nat) : Option (List Nat × List Nat) :=
  if inp = [] then none
  else
    let line := fgets_line (size - 1) inp
    some (line, inp.drop line.length)

/-- The value of a run of decimal digits. -/
def digitsValue (ds : List Nat) : Nat := ds.foldl (fun a d => a * 10 + (d - 48)) 0

/-- The libc `sscanf(s, "%s %zu\n", cmd, &cmdsz)` on the C string `s`: the number of items
assigned (-1 for EOF), the token and the number.  `%s` skips white space and takes the run
of non-space bytes; the blank and `%zu` skip white space; `%zu` takes an optional sign and
a run of digits, as `strtoul` does (a magnitude out of range reads as `SIZE_MAX`
whatever the sign; otherwise a minus sign negates modulo `2 ^ 64`). -/
def sscanf_s_zu (s : List Nat) : Int × List Nat × Nat :=
  let s0 := s.dropWhile isspace
  let cmd := s0.takeWhile (fun c => !isspace c)
  if cmd = [] then (-1, [], 0)
  else
    let s1 := (s0.dropWhile (fun c => !isspace c)).dropWhile isspace
    let neg := s1.head? == some 45
    let s2 := if s1.head? == some 45 || s1.head? == some 43 then s1.tail else s1
    let ds := s2.takeWhile isdigit
    if ds = [] then (1, cmd, 0)
    else
      let v := digitsValue ds
      (2, cmd, if SIZE_MAX < v then SIZE_MAX else if neg then (2 ^ 64 - v) % 2 ^ 64 else v)

/-- State of `stdin_loop`: its two buffers, the unread part of standard input, the texts
passed to `td_json_client_send` so far, what was written to standard error, the logical
content of the source buffer at each call of `tdat_plist_value` so far, and whether the
`fread` has stored bytes past the capacity of the source buffer.  From such a store on
the behaviour of the C program is undefined, and the run is followed no further. -/
structure stdin_state where
  plist_src : telega_dat
  json_dst : telega_dat
  stdin : List Nat
  sent : List (List Nat)
  err : List Nat
  calls : List (List Nat)
  fault : Bool
  deriving DecidableEq, Repr

/-- How the `fread` of `stdin_loop` ends: all the bytes asked for were read and stored
within the capacity of the storage; fewer bytes were read; or bytes were stored past the
capacity of the storage. -/
inductive fread_outcome where
  | complete
  | short
  | overrun
  deriving DecidableEq, Repr

/-- Lines 124-133 of `stdin_loop`: `tdat_ensure(&plist_src, cmdsz)`, the `fread` of
`cmdsz + 1` bytes into the storage from offset 0, and, when that many bytes were read,
`plist_src.end = cmdsz + 1`.  The result is the buffer, the unread input and how the read
ended: the bytes read are more than the capacity the storage has after `tdat_ensure`
(`overrun`), or else fewer than asked for (`short`), or else all there (`complete`). -/
def stdin_fill (plist_src : telega_dat) (cmdsz : Nat) (inp : List Nat) :
    telega_dat × List Nat × fread_outcome :=
  let src := tdat_ensure plist_src cmdsz
  let n := (cmdsz + 1) % 2 ^ 64
  let got := inp.take n
  let rd : fread_outcome :=
    if src.cap < got.length then .overrun else if got.length ≠ n then .short else .complete
  let src := { src with data := writeAt src.data 0 got }
  if got.length ≠ n then (src, inp.drop n, rd)
  else ({ src with end_ := n }, inp.drop n, rd)

/-- How one pass through a loop body ends. -/
inductive iter_result (σ : Type) where
  | next (s : σ)
  | exit (s : σ)
  deriving DecidableEq, Repr

/-- The state carried by the end of a pass. -/
def iter_result.state {σ : Type} : iter_result σ → σ
  | .next s => s
  | .exit s => s

/-- One evaluation of the condition and the body of the `while` of `stdin_loop`.  A pass
whose `fread` stores past the capacity of the source buffer ends the run, with `fault`
set. -/
def stdin_iter (plist : transcoder) (s : stdin_state) : iter_result stdin_state :=
  match fgets 33 s.stdin with
  | none => .exit s
  | some (line, rest) =>
    let cmdline := cstr line
    let (n, cmd, cmdsz) := sscanf_s_zu cmdline
    if n ≠ 2 then
      .next { s with stdin := rest,
                     err := s.err ++ ascii "Unexpected cmdline format: " ++ cmdline }
    else
      let (src, rest, rd) := stdin_fill s.plist_src cmdsz rest
      match rd with
      | .overrun => .exit { s with plist_src := src, stdin := rest, fault := true }
      | .short =>
        .exit { s with plist_src := src, stdin := rest,
                       err := s.err ++ ascii "fread() error: 0\n" }
      | .complete =>
        let dst := tdat_value plist src s.json_dst
        let dst := tdat_append1 dst 0
        { plist_src := tdat_reset src, json_dst := tdat_reset dst, stdin := rest,
          sent := if cmd = ascii "send" then s.sent ++ [cstr dst.data] else s.sent,
          err := if cmd = ascii "send" then s.err else s.err ++ ascii "Unknown command: " ++ cmd,
          calls := s.calls ++ [src.content], fault := s.fault } |> .next

/-- State of `stdin_loop` on entry to the loop. -/
def stdin_init (inp : List Nat) : stdin_state :=
  { plist_src := TDAT_INIT, json_dst := TDAT_INIT, stdin := inp, sent := [], err := [],
    calls := [], fault := false }

/-- The loop of `stdin_loop`, followed by the two `tdat_drop` unless the run ended at a
store past the capacity; `none` when the given number of passes does not reach the end of
the loop. -/
def stdin_run (plist : transcoder) : Nat → stdin_state → Option stdin_state
  | 0, _ => none
  | fuel + 1, s =>
    match stdin_iter plist s with
    | .exit s1 =>
      some (if s1.fault then s1
            else { s1 with plist_src := tdat_drop s1.plist_src,
                           json_dst := tdat_drop s1.json_dst })
    | .next s1 => stdin_run plist fuel s1

/-- The function `stdin_loop` on the input `inp`.  Every pass that does not leave the loop
consumes at least one byte, so one pass more than there are bytes is enough. -/
def stdin_loop (plist : transcoder) (inp : List Nat) : Option stdin_state :=
  stdin_run plist (inp.length + 1) (stdin_init inp)

/-! ## `parse_stdin` and `main` -/

/-- The macro `PARSE_MODE_JSON`. -/
def PARSE_MODE_JSON : Nat := 1

/-- The macro `PARSE_MODE_PLIST`. -/
def PARSE_MODE_PLIST : Nat := 2

/-- The macro `RDSIZE` of `parse_stdin`. -/
def RDSIZE : Nat := 1024

/-- One `read(0, &src.data[src.end], RDSIZE)` that returned `chunk.length > 0` bytes,
followed by `src.end += rlen`. -/
def parse_read (src : telega_dat) (chunk : List Nat) : telega_dat :=
  { src with data := writeAt src.data src.end_ chunk, end_ := src.end_ + chunk.length }

/-- The read loop of `parse_stdin`.  Each element of `reads` is what one call of `read`
stored, at most `RDSIZE` bytes; `read` returns 0 or -1 where an empty element occurs or
the list ends. -/
def parse_read_loop : telega_dat → List (List Nat) → telega_dat
  | src, [] => src
  | src, c :: cs =>
    if 0 < c.length then parse_read_loop (tdat_ensure (parse_read src c) RDSIZE) cs else src

/-- Lines 154-165 of `parse_stdin`: the source buffer when the transcoder is called. -/
def parse_source (reads : List (List Nat)) : telega_dat :=
  tdat_append1 (parse_read_loop (tdat_ensure TDAT_INIT RDSIZE) reads) 0

/-- Which of the two transcoders a call went to. -/
inductive direction where
  | json_value
  | plist_value
  deriving DecidableEq, Repr

/-- What `parse_stdin` does: the bytes written to standard output and the transcoder calls
made, each with the logical content of its source buffer. -/
structure parse_result where
  stdout : List Nat
  conv : List (direction × List Nat)
  deriving DecidableEq, Repr

/-- The function `parse_stdin`, `parse_mode` being the global of that name. -/
def parse_stdin (json plist : transcoder) (parse_mode : Nat) (reads : List (List Nat)) :
    parse_result :=
  let src := parse_source reads
  let dst :=
    if parse_mode = PARSE_MODE_JSON then tdat_value json src TDAT_INIT
    else tdat_value plist src TDAT_INIT
  let dst := tdat_append1 dst 0
  { stdout := cstr dst.data ++ [10],
    conv := [(if parse_mode = PARSE_MODE_JSON then .json_value else .plist_value, src.content)] }

/-- What `usage(prog)` prints before `exit(0)`. -/
def usage (prog : List Nat) : List Nat :=
  ascii "Version 0.2.0\n"
  ++ ascii "usage: " ++ cstr prog ++ ascii " [-jp] [-l FILE] [-v LVL] [-h]\n"
  ++ ascii "\t-l FILE    Log to FILE (default=stderr)\n"
  ++ ascii "\t-v LVL     Verbosity level (default=5)\n"
  ++ ascii "\n-j         Parse json from stdin and exit\n"
  ++ ascii "\n-p         Parse plist from stdin and exit\n"

/-- One result of `getopt(ac, av, "jpl:v:h")` other than -1: the character returned (`?`
for an option that is not in the string or lacks its argument) and `optarg`. -/
structure getopt_ret where
  ch : Char
  optarg : List Nat
  deriving DecidableEq, Repr

/-- The calls `main` makes into the client library and the thread library. -/
inductive td_call where
  | set_log_verbosity_level (v : Int)
  | set_log_file_path (path : List Nat)
  | set_log_fatal_error_callback
  | json_client_create
  | pthread_create_tdlib_loop
  | json_client_destroy
  deriving DecidableEq, Repr

/-- The libc `atoi` on a C string, which is `(int) strtol(s, NULL, 10)`: white space is
skipped, an optional sign and a run of digits are read, the value is clamped to the range
of `long` (64 bits) and converted to `int` (32 bits, two's complement). -/
def atoi (s : List Nat) : Int :=
  let s1 := (cstr s).dropWhile isspace
  let neg := s1.head? == some 45
  let s2 := if s1.head? == some 45 || s1.head? == some 43 then s1.tail else s1
  let v : Int := digitsValue (s2.takeWhile isdigit)
  let l : Int := if neg then max (-v) (-9223372036854775808) else min v 9223372036854775807
  (l + 2147483648) % 4294967296 - 2147483648

/-- The globals `main` sets while it reads the options, and the library calls made. -/
structure opt_state where
  verbosity : Int
  logfile : Option (List Nat)
  parse_mode : Nat
  td : List td_call
  deriving DecidableEq, Repr

/-- The option loop of `main` over the successive results of `getopt`; the flag tells that
`usage` was called, which ends the process. -/
def main_getopt : List getopt_ret → opt_state → opt_state × Bool
  | [], st => (st, false)
  | o :: os, st =>
    if o.ch = 'v' then
      main_getopt os { st with verbosity := atoi o.optarg,
                               td := st.td ++ [.set_log_verbosity_level (atoi o.optarg)] }
    else if o.ch = 'l' then
      main_getopt os { st with logfile := some (cstr o.optarg),
                               td := st.td ++ [.set_log_file_path (cstr o.optarg)] }
    else if o.ch = 'j' then main_getopt os { st with parse_mode := PARSE_MODE_JSON }
    else if o.ch = 'p' then main_getopt os { st with parse_mode := PARSE_MODE_PLIST }
    else (st, true)

/-- What a run of `main` does on its own thread: the bytes written to standard output, the
exit status, the library calls, the transcoder calls of `parse_stdin`, and the outcome of
`stdin_loop` when it was run. -/
structure main_result where
  stdout : List Nat
  status : Int
  td : List td_call
  conv : List (direction × List Nat)
  server : Option (Option stdin_state)
  deriving DecidableEq, Repr

/-- The function `main`: `prog` is `av[0]`, `opts` the successive results of `getopt`,
`reads` what the successive reads of standard input deliver. -/
def main (json plist : transcoder) (prog : List Nat) (opts : List getopt_ret)
    (reads : List (List Nat)) : main_result :=
  let (st, help) := main_getopt opts
    { verbosity := 5, logfile := none, parse_mode := 0, td := [] }
  if help then
    { stdout := usage prog, status := 0, td := st.td, conv := [], server := none }
  else if st.parse_mode ≠ 0 then
    let r := parse_stdin json plist st.parse_mode reads
    { stdout := r.stdout, status := 0, td := st.td, conv := r.conv, server := none }
  else
    { stdout := [], status := 0,
      td := st.td ++ [.set_log_fatal_error_callback, .json_client_create,
                      .pthread_create_tdlib_loop, .json_client_destroy],
      conv := [], server := some (stdin_loop plist reads.flatten) }

/-! ## Inbound frames -/

/-- An inbound frame of the Input/Output Protocol described at the head of
`telega-server.c`: its command token and its payload. -/
structure in_frame where
  cmd : List Nat
  payload : List Nat
  deriving DecidableEq, Repr

/-- The header line of an inbound frame: `<COMMAND> <SPACE> <PLIST-LEN> <NEWLINE>`. -/
def in_frame.header (f : in_frame) : List Nat :=
  f.cmd ++ [32] ++ decimal f.payload.length ++ [10]

/-- The bytes of an inbound frame on standard input: the header line, the payload of the
announced length and a newline. -/
def in_frame.bytes (f : in_frame) : List Nat := f.header ++ (f.payload ++ [10])

/-- A frame the editor can send: the command is a non-empty token without white space or
zero byte, the header line has at most 32 bytes with its newline, and the payload with its
newline has a length that a `size_t` holds. -/
def in_frame.wf (f : in_frame) : Prop :=
  f.cmd ≠ [] ∧ (∀ c ∈ f.cmd, c ≠ 0 ∧ isspace c = false) ∧ f.header.length ≤ 32
    ∧ f.payload.length < SIZE_MAX

instance (f : in_frame) : Decidable f.wf := by
  unfold in_frame.wf; infer_instance

/-- The input stream made of the given frames. -/
def stream (fs : List in_frame) : List Nat := (fs.map in_frame.bytes).flatten

/-- The first `n` passes through the loop of `stdin_loop`; `none` when the loop is left
before. -/
def stdin_passes (plist : transcoder) : Nat → stdin_state → Option stdin_state
  | 0, s => some s
  | n + 1, s =>
    match stdin_iter plist s with
    | .exit _ => none
    | .next s1 => stdin_passes plist n s1

/-- The library calls that configure logging. -/
def td_call.is_log : td_call → Bool
  | .set_log_verbosity_level _ => true
  | .set_log_file_path _ => true
  | _ => false

/-- The library's text of the documented `updateAuthorizationState` event. -/
def example_event_json : List Nat :=
  ascii ("\x7b\"@type\":\"updateAuthorizationState\",\"authorization_state\":"
    ++ "\x7b\"@type\":\"authorizationStateWaitTdlibParameters\"\x7d\x7d")

/-- The plist of the `event 105` example in the protocol comment. -/
def example_event_plist : List Nat :=
  ascii ("(:@type \"updateAuthorizationState\" :authorization_state "
    ++ "(:@type \"authorizationStateWaitTdlibParameters\"))")

/-- The plist of the `send 109` example in the protocol comment. -/
def example_send_plist : List Nat :=
  ascii ("(:@type \"getTextEntities\" :text \"@telegram /test_command "
    ++ "https://telegram.org telegram.me\" :@extra [\"5\" 7.0])")

/-- A transcoder that rejects every source after emitting `part`. -/
def failing (part : List Nat) : transcoder := fun _ => { out := part, ok := false }

/-- The destination buffer of `tdlib_loop` at the `printf` for `text`, received after the
receives `rs`. -/
def event_dst (json : transcoder) (rs : List (Option (List Nat))) (text : List Nat) :
    telega_dat :=
  (convert_text json (tdlib_loop json rs).json_src (tdlib_loop json rs).plist_dst text).2

/-- The destination buffer of `on_error_cb` at its `printf`. -/
def error_dst (json : transcoder) (errmsg : List Nat) : telega_dat :=
  (convert_text json TDAT_INIT TDAT_INIT errmsg).2

/-! ## The codec, modelled from the spec

The two transcoders are code of `telega-dat.c`.  They are modelled here from the
specification's data model and grammar mapping.  Where the specification leaves the
grammar to the implementer, this model fixes it as follows: the keyword marker is `:`; the
reserved tokens for true, false and null are `t`, `false` and `nil`; a String is escaped in
the same way in both syntaxes; a number has no exponent; the source-format text is written
without blanks.  A transcoder reads one value from its source and renders it in the other
syntax; whether the value is materialised in between does not change what is emitted.
-/

mutual
/-- Modelled from the spec: the Conceptual Value of the data model (the transcoders of
`telega-dat.c` are not among the sources).  A number is tagged Integer or Float; a Float is
a decimal with at least one digit after the point (sign, whole part, first fractional
digit, further fractional digits); a String is a sequence of scalar values; an Array is an
ordered sequence of values and an Object an ordered sequence of key and value pairs. -/
inductive Value where
  | null
  | bool (b : Bool)
  | int (i : Int)
  | float (neg : Bool) (whole : Nat) (d : Fin 10) (ds : List (Fin 10))
  | str (s : List Nat)
  | arr (vs : Values)
  | obj (ms : Members)
/-- Modelled from the spec: the elements of an Array, in order. -/
inductive Values where
  | nil
  | cons (v : Value) (vs : Values)
/-- Modelled from the spec: the key and value pairs of an Object, in order. -/
inductive Members where
  | nil
  | cons (k : List Nat) (v : Value) (ms : Members)
end

/-- Modelled from the spec: the character of a decimal digit. -/
def fdigit (d : Fin 10) : Nat := 48 + d.val

/-- Modelled from the spec: the digit a decimal digit character stands for. -/
def todigit (c : Nat) : Fin 10 := ⟨(c - 48) % 10, Nat.mod_lt _ (by decide)⟩

/-- Modelled from the spec: the character of a hexadecimal digit. -/
def hexdigit (n : Nat) : Nat := if n < 10 then 48 + n else 87 + n

/-- Modelled from the spec: the value of a hexadecimal digit character. -/
def hexval (c : Nat) : Option Nat :=
  if 48 ≤ c ∧ c ≤ 57 then some (c - 48)
  else if 97 ≤ c ∧ c ≤ 102 then some (c - 87)
  else if 65 ≤ c ∧ c ≤ 70 then some (c - 55)
  else none

/-- Modelled from the spec: the escaping of one character of a String, the same in both
syntaxes: backslash escapes for the double quote and the backslash, the numeric escape for
a control character, and any other character as it is. -/
def escape1 (c : Nat) : List Nat :=
  if c = 34 then [92, 34]
  else if c = 92 then [92, 92]
  else if c < 32 then [92, 117, 48, 48, hexdigit (c / 16), hexdigit (c % 16)]
  else [c]

/-- Modelled from the spec: the escaped content of a String. -/
def escape : List Nat → List Nat
  | [] => []
  | c :: cs => escape1 c ++ escape cs

/-- Modelled from the spec: the rendering of a String, in both syntaxes. -/
def quoted (s : List Nat) : List Nat := 34 :: escape s ++ [34]

/-- Modelled from the spec: the rendering of a number, in both syntaxes: an Integer is an
optional minus and decimal digits, a Float always has a decimal point. -/
def number_int (i : Int) : List Nat :=
  if i < 0 then 45 :: decimal i.natAbs else decimal i.natAbs

/-- Modelled from the spec: the rendering of a Float. -/
def number_float (neg : Bool) (whole : Nat) (d : Fin 10) (ds : List (Fin 10)) : List Nat :=
  (if neg then [45] else []) ++ decimal whole ++ 46 :: fdigit d :: ds.map fdigit

mutual
/-- Modelled from the spec: the canonical source-format (JSON) text of a value. -/
def json_of : Value → List Nat
  | .null => ascii "null"
  | .bool true => ascii "true"
  | .bool false => ascii "false"
  | .int i => number_int i
  | .float neg whole d ds => number_float neg whole d ds
  | .str s => quoted s
  | .arr .nil => ascii "[]"
  | .arr (.cons v vs) => 91 :: json_of v ++ json_of_elements vs
  | .obj .nil => ascii "\x7b\x7d"
  | .obj (.cons k v ms) => 123 :: quoted k ++ 58 :: json_of v ++ json_of_members ms
/-- Modelled from the spec: the elements after the first, and the closing bracket. -/
def json_of_elements : Values → List Nat
  | .nil => [93]
  | .cons v vs => 44 :: json_of v ++ json_of_elements vs
/-- Modelled from the spec: the pairs after the first, and the closing brace. -/
def json_of_members : Members → List Nat
  | .nil => [125]
  | .cons k v ms => 44 :: quoted k ++ 58 :: json_of v ++ json_of_members ms
end

mutual
/-- Modelled from the spec: the plist text of a value, by the grammar mapping of the
Forward Transcoder: an Object is a parenthesized list of keyword and value, the keyword
being the key after the marker `:`; an Array is a bracketed, space-separated sequence;
true, false and null are the reserved tokens `t`, `false` and `nil`. -/
def plist_of : Value → List Nat
  | .null => ascii "nil"
  | .bool true => ascii "t"
  | .bool false => ascii "false"
  | .int i => number_int i
  | .float neg whole d ds => number_float neg whole d ds
  | .str s => quoted s
  | .arr .nil => ascii "[]"
  | .arr (.cons v vs) => 91 :: plist_of v ++ plist_of_elements vs
  | .obj .nil => ascii "()"
  | .obj (.cons k v ms) => 40 :: 58 :: k ++ 32 :: plist_of v ++ plist_of_members ms
/-- Modelled from the spec: the elements after the first, and the closing bracket. -/
def plist_of_elements : Values → List Nat
  | .nil => [93]
  | .cons v vs => 32 :: plist_of v ++ plist_of_elements vs
/-- Modelled from the spec: the pairs after the first, and the closing parenthesis. -/
def plist_of_members : Members → List Nat
  | .nil => [41]
  | .cons k v ms => 32 :: 58 :: k ++ 32 :: plist_of v ++ plist_of_members ms
end

/-- Modelled from the spec: a character that may stand in a keyword: not white space or a
control character, not a parenthesis, a bracket, a double quote or a backslash. -/
def key_legal (c : Nat) : Bool :=
  32 < c && c != 127 && c != 34 && c != 40 && c != 41 && c != 91 && c != 92 && c != 93

mutual
/-- Modelled from the spec: every key of every Object in the value is made of characters
legal in a keyword; otherwise rendering the value as a plist is the spec's EncodingError. -/
def Value.keys_legal : Value → Bool
  | .arr vs => vs.keys_legal
  | .obj ms => ms.keys_legal
  | _ => true
/-- Modelled from the spec: the keys in the elements are legal. -/
def Values.keys_legal : Values → Bool
  | .nil => true
  | .cons v vs => v.keys_legal && vs.keys_legal
/-- Modelled from the spec: the keys of the pairs, and those in their values, are legal. -/
def Members.keys_legal : Members → Bool
  | .nil => true
  | .cons k v ms => k.all key_legal && v.keys_legal && ms.keys_legal
end

/-- Modelled from the spec: skipping white space between tokens. -/
def skipws (s : List Nat) : List Nat := s.dropWhile isspace

/-- Modelled from the spec: the text after the literal `lit`, when the text starts with it. -/
def expect (lit s : List Nat) : Option (List Nat) :=
  if lit.isPrefixOf s then some (s.drop lit.length) else none

/-- Modelled from the spec: the scanner of a String after its opening quote: the content
and the text after the closing quote; `none` for an unterminated string or an invalid
escape sequence. -/
def scan_string : List Nat → Option (List Nat × List Nat)
  | [] => none
  | c :: r =>
    if c = 34 then some ([], r)
    else if c = 92 then
      match r with
      | [] => none
      | e :: r1 =>
        if e = 34 ∨ e = 92 then (scan_string r1).map (fun p => (e :: p.1, p.2))
        else if e = 110 then (scan_string r1).map (fun p => (10 :: p.1, p.2))
        else if e = 116 then (scan_string r1).map (fun p => (9 :: p.1, p.2))
        else if e = 117 then
          match r1 with
          | a :: b :: c1 :: d :: r2 =>
            match hexval a, hexval b, hexval c1, hexval d with
            | some x, some y, some z, some w =>
              (scan_string r2).map (fun p => ((((x * 16 + y) * 16 + z) * 16 + w) :: p.1, p.2))
            | _, _, _, _ => none
          | _ => none
        else none
    else (scan_string r).map (fun p => (c :: p.1, p.2))

/-- Modelled from the spec: the scanner of a number, in both syntaxes: an optional minus,
decimal digits, and for a Float a point and at least one digit; `none` for invalid number
syntax. -/
def parse_number (src : List Nat) : Option (Value × List Nat) :=
  let neg := src.head? == some 45
  let s := if neg then src.tail else src
  let ds := s.takeWhile isdigit
  if ds = [] then none
  else
    match s.dropWhile isdigit with
    | 46 :: r1 =>
      match r1.takeWhile isdigit with
      | [] => none
      | f :: fs =>
        some (.float neg (digitsValue ds) (todigit f) (fs.map todigit), r1.dropWhile isdigit)
    | r => some (.int (if neg then -(digitsValue ds : Int) else (digitsValue ds : Int)), r)

mutual
/-- Modelled from the spec: the recursive-descent scanner of a source-format value: the
value read and the text after it; `none` is the spec's ParseError (unexpected end of input,
invalid escape, invalid number, unterminated string, unbalanced container).  The first
argument bounds the depth of the descent. -/
def json_value : Nat → List Nat → Option (Value × List Nat)
  | 0, _ => none
  | n + 1, src =>
    match skipws src with
    | [] => none
    | c :: r =>
      if c = 110 then (expect (ascii "ull") r).map (fun r1 => (Value.null, r1))
      else if c = 116 then (expect (ascii "rue") r).map (fun r1 => (Value.bool true, r1))
      else if c = 102 then (expect (ascii "alse") r).map (fun r1 => (Value.bool false, r1))
      else if c = 34 then (scan_string r).map (fun p => (Value.str p.1, p.2))
      else if c = 91 then
        if (skipws r).head? = some 93 then some (Value.arr Values.nil, (skipws r).tail)
        else
          match json_value n r with
          | none => none
          | some (v, r1) =>
            match json_elements n r1 with
            | none => none
            | some (vs, r2) => some (Value.arr (Values.cons v vs), r2)
      else if c = 123 then
        if (skipws r).head? = some 125 then some (Value.obj Members.nil, (skipws r).tail)
        else
          match json_member n r with
          | none => none
          | some (ms, r1) => some (Value.obj ms, r1)
      else parse_number (c :: r)
/-- Modelled from the spec: the body of an Array after an element: the closing bracket, or
a comma and the further elements. -/
def json_elements : Nat → List Nat → Option (Values × List Nat)
  | 0, _ => none
  | n + 1, src =>
    match skipws src with
    | [] => none
    | c :: r =>
      if c = 93 then some (Values.nil, r)
      else if c = 44 then
        match json_value n r with
        | none => none
        | some (v, r1) =>
          match json_elements n r1 with
          | none => none
          | some (vs, r2) => some (Values.cons v vs, r2)
      else none
/-- Modelled from the spec: a pair of an Object, the key as a String, a colon and the
value, and the rest of the body. -/
def json_member : Nat → List Nat → Option (Members × List Nat)
  | 0, _ => none
  | n + 1, src =>
    match skipws src with
    | [] => none
    | c :: r =>
      if c = 34 then
        match scan_string r with
        | none => none
        | some (k, r1) =>
          if (skipws r1).head? = some 58 then
            match json_value n (skipws r1).tail with
            | none => none
            | some (v, r2) =>
              match json_members n r2 with
              | none => none
              | some (ms, r3) => some (Members.cons k v ms, r3)
          else none
      else none
/-- Modelled from the spec: the body of an Object after a pair: the closing brace, or a
comma and the further pairs. -/
def json_members : Nat → List Nat → Option (Members × List Nat)
  | 0, _ => none
  | n + 1, src =>
    match skipws src with
    | [] => none
    | c :: r =>
      if c = 125 then some (Members.nil, r)
      else if c = 44 then json_member n r
      else none
end

mutual
/-- Modelled from the spec: the recursive-descent scanner of a plist value, symmetric to
`json_value`: parenthesized keyword and value lists, bracketed element sequences, quoted
strings, decimal numbers and the reserved tokens. -/
def plist_value : Nat → List Nat → Option (Value × List Nat)
  | 0, _ => none
  | n + 1, src =>
    match skipws src with
    | [] => none
    | c :: r =>
      if c = 110 then (expect (ascii "il") r).map (fun r1 => (Value.null, r1))
      else if c = 116 then some (Value.bool true, r)
      else if c = 102 then (expect (ascii "alse") r).map (fun r1 => (Value.bool false, r1))
      else if c = 34 then (scan_string r).map (fun p => (Value.str p.1, p.2))
      else if c = 91 then
        if (skipws r).head? = some 93 then some (Value.arr Values.nil, (skipws r).tail)
        else
          match plist_value n r with
          | none => none
          | some (v, r1) =>
            match plist_elements n r1 with
            | none => none
            | some (vs, r2) => some (Value.arr (Values.cons v vs), r2)
      else if c = 40 then
        if (skipws r).head? = some 41 then some (Value.obj Members.nil, (skipws r).tail)
        else
          match plist_member n r with
          | none => none
          | some (ms, r1) => some (Value.obj ms, r1)
      else parse_number (c :: r)
/-- Modelled from the spec: the body of a bracketed sequence after an element: the closing
bracket, or a further element. -/
def plist_elements : Nat → List Nat → Option (Values × List Nat)
  | 0, _ => none
  | n + 1, src =>
    match skipws src with
    | [] => none
    | c :: r =>
      if c = 93 then some (Values.nil, r)
      else
        match plist_value n (c :: r) with
        | none => none
        | some (v, r1) =>
          match plist_elements n r1 with
          | none => none
          | some (vs, r2) => some (Values.cons v vs, r2)
/-- Modelled from the spec: a keyword, whose marker is stripped to give the key, its value,
and the rest of the list. -/
def plist_member : Nat → List Nat → Option (Members × List Nat)
  | 0, _ => none
  | n + 1, src =>
    match skipws src with
    | [] => none
    | c :: r =>
      if c = 58 then
        match plist_value n (r.dropWhile key_legal) with
        | none => none
        | some (v, r1) =>
          match plist_members n r1 with
          | none => none
          | some (ms, r2) => some (Members.cons (r.takeWhile key_legal) v ms, r2)
      else none
/-- Modelled from the spec: the body of a keyword list after a pair: the closing
parenthesis, or a further pair. -/
def plist_members : Nat → List Nat → Option (Members × List Nat)
  | 0, _ => none
  | n + 1, src =>
    match skipws src with
    | [] => none
    | c :: r =>
      if c = 41 then some (Members.nil, r)
      else plist_member n (c :: r)
end

/-- Modelled from the spec: what may follow the single value a source buffer holds: white
space and the terminator. -/
def trailer (rest : List Nat) : Bool := rest.all (fun c => isspace c || c == 0)

/-- Modelled from the spec: the Forward Transcoder `tdat_json_value` of `telega-dat.c`: it
reads the single source-format value the source holds and emits its plist text.  A
ParseError, or a key that is not legal in a keyword (the spec's EncodingError), fails the
conversion and nothing is emitted. -/
def tdat_json_value : transcoder := fun src =>
  match json_value (src.length + 1) src with
  | some (v, rest) =>
    if trailer rest && v.keys_legal then { out := plist_of v, ok := true }
    else { out := [], ok := false }
  | none => { out := [], ok := false }

/-- Modelled from the spec: the Reverse Transcoder `tdat_plist_value` of `telega-dat.c`: it
reads the single plist value the source holds and emits its source-format text, every
keyword becoming a plain string key; a ParseError fails the conversion and nothing is
emitted. -/
def tdat_plist_value : transcoder := fun src =>
  match plist_value (src.length + 1) src with
  | some (v, rest) =>
    if trailer rest then { out := json_of v, ok := true } else { out := [], ok := false }
  | none => { out := [], ok := false }

/-- The source-format text of the documented `send 109` example after the Reverse
Transcoder. -/
def example_send_json : List Nat :=
  ascii ("\x7b\"@type\":\"getTextEntities\",\"text\":\"@telegram /test_command "
    ++ "https://telegram.org telegram.me\",\"@extra\":[\"5\",7.0]\x7d")

/-- The value of the documented `send 109` example. -/
def example_send_value : Value :=
  .obj (.cons (ascii "@type") (.str (ascii "getTextEntities"))
    (.cons (ascii "text")
      (.str (ascii "@telegram /test_command https://telegram.org telegram.me"))
      (.cons (ascii "@extra") (.arr (.cons (.str (ascii "5")) (.cons (.float false 7 0 []) .nil)))
        .nil)))

mutual
/-- A bound on the depth of the descent that reads a value. -/
def Value.size : Value → Nat
  | .arr (.cons v vs) => 1 + v.size + vs.size
  | .obj (.cons _ v ms) => 2 + v.size + ms.size
  | _ => 1
/-- A bound on the depth of the descent that reads the elements. -/
def Values.size : Values → Nat
  | .nil => 1
  | .cons v vs => 1 + v.size + vs.size
/-- A bound on the depth of the descent that reads the pairs. -/
def Members.size : Members → Nat
  | .nil => 1
  | .cons _ v ms => 2 + v.size + ms.size
end

/-- The value of an object whose one key has a space in it. -/
def example_bad_key : Value := .obj (.cons (ascii "a b") .null .nil)

/-- The text after a number does not go on as a number. -/
def num_end (rest : List Nat) : Prop :=
  ∀ c, rest.head? = some c → isdigit c = false ∧ c ≠ 46

/-- A character a rendered value can start with. -/
def value_head (c : Nat) : Prop :=
  c = 110 ∨ c = 116 ∨ c = 102 ∨ c = 34 ∨ c = 91 ∨ c = 123 ∨ c = 40 ∨ c = 45 ∨ (48 ≤ c ∧ c ≤ 57)

/-! ## C strings and the buffer operations -/

theorem cstr_append_zero (a b : List Nat) : cstr (a ++ 0 :: b) = cstr a := by
  induction a with
  | nil => simp [cstr]
  | cons x xs ih =>
    by_cases hx : x = 0
    · subst hx; simp [cstr]
    · simp only [cstr, List.cons_append] at ih ⊢
      simp [List.takeWhile_cons, hx, ih]

theorem cstr_eq_self {a : List Nat} (h : 0 ∉ a) : cstr a = a := by
  unfold cstr
  rw [List.takeWhile_eq_self_iff]
  intro x hx
  have : x ≠ 0 := fun e => h (e ▸ hx)
  simpa using this

theorem cstr_length_le (a : List Nat) : (cstr a).length ≤ a.length := by
  unfold cstr
  exact (List.takeWhile_sublist _).length_le

theorem cstr_length_eq_iff (a : List Nat) : (cstr a).length = a.length ↔ 0 ∉ a := by
  constructor
  · intro h hmem
    induction a with
    | nil => simp at hmem
    | cons x xs ih =>
      by_cases hx : x = 0
      · subst hx; simp [cstr] at h
      · have hm : 0 ∈ xs := by
          rcases List.mem_cons.1 hmem with e | e
          · exact absurd e.symm hx
          · exact e
        apply ih _ hm
        simpa [cstr, List.takeWhile_cons, hx] using h
  · intro h; rw [cstr_eq_self h]

theorem tdat_ensure_end (d : telega_dat) (n : Nat) : (tdat_ensure d n).end_ = d.end_ := by
  unfold tdat_ensure; split <;> rfl

theorem tdat_ensure_data (d : telega_dat) (n : Nat) : (tdat_ensure d n).data = d.data := by
  unfold tdat_ensure; split <;> rfl

theorem tdat_ensure_freed (d : telega_dat) (n : Nat) : (tdat_ensure d n).freed = d.freed := by
  unfold tdat_ensure; split <;> rfl

theorem tdat_ensure_free (d : telega_dat) (n : Nat) : d.end_ + n ≤ (tdat_ensure d n).cap := by
  unfold tdat_ensure; split
  · assumption
  · simp

theorem tdat_append_end (d : telega_dat) (bs : List Nat) :
    (tdat_append d bs).end_ = d.end_ + bs.length := by
  simp [tdat_append, tdat_ensure_end]

theorem tdat_append_data (d : telega_dat) (bs : List Nat) :
    (tdat_append d bs).data = d.data.take d.end_ ++ bs ++ d.data.drop (d.end_ + bs.length) := by
  simp [tdat_append, tdat_ensure_end, tdat_ensure_data, writeAt]

theorem tdat_append_freed (d : telega_dat) (bs : List Nat) :
    (tdat_append d bs).freed = d.freed := by
  simp [tdat_append, tdat_ensure_freed]

theorem tdat_append_le_cap (d : telega_dat) (bs : List Nat) :
    (tdat_append d bs).end_ ≤ (tdat_append d bs).cap := by
  have := tdat_ensure_free d bs.length
  simp [tdat_append, tdat_ensure_end]
  exact this

theorem tdat_append_content (d : telega_dat) (bs : List Nat) (h : d.end_ ≤ d.data.length) :
    (tdat_append d bs).content = d.content ++ bs := by
  unfold telega_dat.content
  rw [tdat_append_end, tdat_append_data]
  have hl : (List.take d.end_ d.data ++ bs).length = d.end_ + bs.length := by
    simp [List.length_take, h]
  rw [List.take_append_of_le_length (by omega), List.take_of_length_le (by omega)]

/-- The destination buffer after a conversion and the terminator, seen as a C string. -/
theorem cstr_converted (tr : transcoder) (src dst : telega_dat) (h : dst.end_ = 0) :
    cstr (tdat_append1 (tdat_value tr src dst) 0).data = cstr (tr src.content).out := by
  unfold tdat_append1 tdat_value
  rw [tdat_append_data, tdat_append_end, tdat_append_data, h]
  simp only [List.take_zero, List.nil_append, Nat.zero_add, List.length_cons, List.length_nil]
  rw [List.take_append_of_le_length (le_refl _), List.take_length, List.append_assoc]
  exact cstr_append_zero _ _

theorem end_converted (tr : transcoder) (src dst : telega_dat) (h : dst.end_ = 0) :
    (tdat_append1 (tdat_value tr src dst) 0).end_ = (tr src.content).out.length + 1 := by
  unfold tdat_append1 tdat_value
  rw [tdat_append_end, tdat_append_end, h]; simp


/-! ## `tdlib_loop` and `on_error_cb` -/

theorem convert_text_cstr (json : transcoder) (src dst : telega_dat) (text : List Nat)
    (hs : src.end_ = 0) (hd : dst.end_ = 0) :
    cstr (convert_text json src dst text).2.data = cstr (json (cstr text)).out := by
  unfold convert_text
  simp only
  rw [cstr_converted _ _ _ hd, tdat_append_content _ _ (by omega)]
  simp [telega_dat.content, hs]

theorem convert_text_end (json : transcoder) (src dst : telega_dat) (text : List Nat)
    (hs : src.end_ = 0) (hd : dst.end_ = 0) :
    (convert_text json src dst text).2.end_ = (json (cstr text)).out.length + 1 := by
  unfold convert_text
  simp only
  rw [end_converted _ _ _ hd, tdat_append_content _ _ (by omega)]
  simp [telega_dat.content, hs]

theorem convert_text_freed (json : transcoder) (src dst : telega_dat) (text : List Nat) :
    (convert_text json src dst text).1.freed = src.freed
      ∧ (convert_text json src dst text).2.freed = dst.freed := by
  simp [convert_text, tdat_append1, tdat_value, tdat_append_freed]

theorem tdlib_iter_out (json : transcoder) (s : tdlib_state) (text : List Nat)
    (hs : s.json_src.end_ = 0) (hd : s.plist_dst.end_ = 0) :
    (tdlib_iter json s (some text)).out
      = s.out ++ (ascii "event " ++ decimal (cstr (json (cstr text)).out).length ++ [10]
          ++ cstr (json (cstr text)).out ++ [10]) := by
  have h := convert_text_cstr json s.json_src s.plist_dst text hs hd
  simp only [tdlib_iter, strlen, h]

theorem tdlib_iter_inv (json : transcoder) (s : tdlib_state) (res : Option (List Nat))
    (h : s.json_src.end_ = 0 ∧ s.plist_dst.end_ = 0
      ∧ s.json_src.freed = false ∧ s.plist_dst.freed = false) :
    (tdlib_iter json s res).json_src.end_ = 0 ∧ (tdlib_iter json s res).plist_dst.end_ = 0
      ∧ (tdlib_iter json s res).json_src.freed = false
      ∧ (tdlib_iter json s res).plist_dst.freed = false := by
  cases res with
  | none => exact h
  | some r =>
    have hf := convert_text_freed json s.json_src s.plist_dst r
    refine ⟨rfl, rfl, ?_, ?_⟩
    · exact hf.1.trans h.2.2.1
    · exact hf.2.trans h.2.2.2

theorem tdlib_loop_snoc (json : transcoder) (rs : List (Option (List Nat)))
    (res : Option (List Nat)) :
    tdlib_loop json (rs ++ [res]) = tdlib_iter json (tdlib_loop json rs) res := by
  simp [tdlib_loop, List.foldl_append]

theorem tdlib_loop_inv (json : transcoder) (rs : List (Option (List Nat))) :
    (tdlib_loop json rs).json_src.end_ = 0 ∧ (tdlib_loop json rs).plist_dst.end_ = 0
      ∧ (tdlib_loop json rs).json_src.freed = false
      ∧ (tdlib_loop json rs).plist_dst.freed = false := by
  induction rs using List.reverseRecOn with
  | nil => simp [tdlib_loop, tdlib_init, TDAT_INIT]
  | append_singleton rs r ih =>
    rw [tdlib_loop_snoc]
    exact tdlib_iter_inv json _ r ih

theorem on_error_cb_eq (json : transcoder) (errmsg : List Nat) :
    on_error_cb json errmsg
      = ascii "error " ++ decimal (cstr (json (cstr errmsg)).out).length ++ [10]
          ++ cstr (json (cstr errmsg)).out ++ [10] := by
  have h := convert_text_cstr json TDAT_INIT TDAT_INIT errmsg rfl rfl
  simp only [on_error_cb, strlen, h]


/-! ## Reading a header line -/

theorem decimalAux_spec : ∀ (fuel n : Nat) (acc : List Nat), n < fuel →
    ∃ ds, decimalAux fuel n acc = ds ++ acc ∧ ds ≠ [] ∧ (∀ c ∈ ds, 48 ≤ c ∧ c ≤ 57)
      ∧ ∀ a, ds.foldl (fun a d => a * 10 + (d - 48)) a = a * 10 ^ ds.length + n := by
  intro fuel
  induction fuel with
  | zero => intro n acc h; omega
  | succ fuel ih =>
    intro n acc h
    unfold decimalAux
    by_cases hn : n < 10
    · refine ⟨[48 + n], by simp [hn], by simp, ?_, ?_⟩
      · intro c hc; simp at hc; omega
      · intro a; simp
    · have hlt : n / 10 < fuel := by omega
      obtain ⟨ds, h1, h2, h3, h4⟩ := ih (n / 10) ((48 + n % 10) :: acc) hlt
      refine ⟨ds ++ [48 + n % 10], by simp [hn, h1], by simp, ?_, ?_⟩
      · intro c hc
        rcases List.mem_append.1 hc with hc | hc
        · exact h3 c hc
        · simp at hc; omega
      · intro a
        rw [List.foldl_append, h4]
        simp [pow_succ]
        have := Nat.div_add_mod n 10
        nlinarith

theorem decimal_spec (n : Nat) :
    decimal n ≠ [] ∧ (∀ c ∈ decimal n, 48 ≤ c ∧ c ≤ 57) ∧ digitsValue (decimal n) = n := by
  obtain ⟨ds, h1, h2, h3, h4⟩ := decimalAux_spec (n + 1) n [] (by omega)
  have hd : decimal n = ds := by simp [decimal, h1]
  rw [hd]
  refine ⟨h2, h3, ?_⟩
  have := h4 0
  simpa [digitsValue] using this

theorem takeWhile_append_stop {p : Nat → Bool} (a : List Nat) (b : Nat) (r : List Nat)
    (ha : ∀ x ∈ a, p x = true) (hb : p b = false) : (a ++ b :: r).takeWhile p = a := by
  induction a with
  | nil => simp [List.takeWhile_cons, hb]
  | cons x xs ih =>
    have hx : p x = true := ha x (by simp)
    simp only [List.cons_append, List.takeWhile_cons, hx, if_true]
    rw [ih (fun y hy => ha y (by simp [hy]))]

theorem dropWhile_append_stop {p : Nat → Bool} (a : List Nat) (b : Nat) (r : List Nat)
    (ha : ∀ x ∈ a, p x = true) (hb : p b = false) : (a ++ b :: r).dropWhile p = b :: r := by
  induction a with
  | nil => simp [List.dropWhile_cons, hb]
  | cons x xs ih =>
    have hx : p x = true := ha x (by simp)
    simp only [List.cons_append, List.dropWhile_cons, hx, if_true]
    rw [ih (fun y hy => ha y (by simp [hy]))]

theorem digit_facts {c : Nat} (h : 48 ≤ c ∧ c ≤ 57) :
    isdigit c = true ∧ isspace c = false ∧ c ≠ 0 ∧ c ≠ 10 ∧ c ≠ 45 ∧ c ≠ 43 := by
  refine ⟨by simp [isdigit, h.1, h.2], ?_, by omega, by omega, by omega, by omega⟩
  simp [isspace]; omega

theorem sscanf_header (cmd : List Nat) (L : Nat) (hne : cmd ≠ [])
    (hc : ∀ c ∈ cmd, c ≠ 0 ∧ isspace c = false) (hL : L ≤ SIZE_MAX) :
    sscanf_s_zu (cmd ++ [32] ++ decimal L ++ [10]) = (2, cmd, L) := by
  obtain ⟨hd1, hd2, hd3⟩ := decimal_spec L
  obtain ⟨c, cs, rfl⟩ := List.exists_cons_of_ne_nil hne
  obtain ⟨d, ds, hdd⟩ := List.exists_cons_of_ne_nil hd1
  have hcsp : isspace c = false := (hc c (by simp)).2
  have hdf := digit_facts (hd2 d (by simp [hdd]))
  have e0 : (c :: cs ++ [32] ++ decimal L ++ [10]).dropWhile isspace
      = c :: cs ++ [32] ++ decimal L ++ [10] := by
    simp [List.dropWhile_cons, hcsp]
  have e1 : (c :: cs ++ [32] ++ decimal L ++ [10]) = (c :: cs) ++ 32 :: (decimal L ++ [10]) := by
    simp
  have e2 : ((c :: cs) ++ 32 :: (decimal L ++ [10])).takeWhile (fun x => !isspace x) = c :: cs :=
    takeWhile_append_stop _ _ _ (fun x hx => by simp [(hc x hx).2]) (by simp [isspace])
  have e3 : ((c :: cs) ++ 32 :: (decimal L ++ [10])).dropWhile (fun x => !isspace x)
      = 32 :: (decimal L ++ [10]) :=
    dropWhile_append_stop _ _ _ (fun x hx => by simp [(hc x hx).2]) (by simp [isspace])
  have e4 : (32 :: (decimal L ++ [10])).dropWhile isspace = decimal L ++ [10] := by
    rw [hdd]; simp [List.dropWhile_cons, isspace, hdf.2.1]
    intro h; exact absurd h (by have := hdf.2.1; simp [isspace] at this; omega)
  have e5 : (decimal L ++ [10]).takeWhile isdigit = decimal L := by
    have := takeWhile_append_stop (p := isdigit) (decimal L) 10 []
      (fun x hx => (digit_facts (hd2 x hx)).1) (by simp [isdigit])
    simpa using this
  unfold sscanf_s_zu
  simp only [e0]
  rw [e1, e2, e3, e4]
  have hh : (decimal L ++ [10]).head? = some d := by rw [hdd]; simp
  simp only [hh, e5]
  have h45 : (some d == some 45) = false := by simp [hdf.2.2.2.2.1]
  have h43 : (some d == some 43) = false := by simp [hdf.2.2.2.2.2]
  have hnot : ¬ SIZE_MAX < L := Nat.not_lt.2 hL
  simp only [h45, h43, Bool.or_self, Bool.false_eq_true, if_false, e5, if_neg hd1, hd3,
    if_neg hnot, if_neg hne]

theorem fgets_line_header : ∀ (n : Nat) (h rest : List Nat), h.length < n → 10 ∉ h →
    fgets_line n (h ++ 10 :: rest) = h ++ [10] := by
  intro n
  induction n with
  | zero => intro h rest hl; omega
  | succ n ih =>
    intro h rest hl hn
    cases h with
    | nil => simp [fgets_line]
    | cons x xs =>
      have hx : x ≠ 10 := fun e => hn (by simp [e])
      have e := ih xs rest (by simpa using hl) (fun e => hn (by simp [e]))
      rw [List.cons_append, fgets_line, if_neg hx, e]
      simp

theorem fgets_header (h rest : List Nat) (hl : h.length < 32) (hn : 10 ∉ h) :
    fgets 33 (h ++ 10 :: rest) = some (h ++ [10], rest) := by
  unfold fgets
  have hne : h ++ 10 :: rest ≠ [] := by simp
  simp only [if_neg hne]
  rw [fgets_line_header 32 h rest hl hn]
  simp

theorem header_facts (f : in_frame) (hwf : f.wf) :
    (f.cmd ++ [32] ++ decimal f.payload.length).length < 32
      ∧ 10 ∉ f.cmd ++ [32] ++ decimal f.payload.length
      ∧ 0 ∉ f.cmd ++ [32] ++ decimal f.payload.length ++ [10] := by
  obtain ⟨h1, h2, h3, h4⟩ := hwf
  obtain ⟨hd1, hd2, hd3⟩ := decimal_spec f.payload.length
  refine ⟨?_, ?_, ?_⟩
  · simp [in_frame.header] at h3 ⊢; omega
  · intro hm
    simp only [List.mem_append, List.mem_singleton] at hm
    rcases hm with (hm | hm) | hm
    · have := (h2 10 hm).2; simp [isspace] at this
    · omega
    · have := hd2 10 hm; omega
  · intro hm
    simp only [List.mem_append, List.mem_singleton] at hm
    rcases hm with ((hm | hm) | hm) | hm
    · exact (h2 0 hm).1 rfl
    · omega
    · have := hd2 0 hm; omega
    · omega

theorem frame_take (payload rest : List Nat) :
    (payload ++ 10 :: rest).take (payload.length + 1) = payload ++ [10] := by
  have : payload ++ 10 :: rest = (payload ++ [10]) ++ rest := by simp
  rw [this, List.take_append_of_le_length (by simp), List.take_of_length_le (by simp)]

theorem frame_drop (payload rest : List Nat) :
    (payload ++ 10 :: rest).drop (payload.length + 1) = rest := by
  have : payload ++ 10 :: rest = (payload ++ [10]) ++ rest := by simp
  rw [this, List.drop_append_of_le_length (by simp), List.drop_of_length_le (by simp)]
  simp

theorem stdin_fill_frame (src : telega_dat) (payload rest : List Nat)
    (hL : payload.length < SIZE_MAX)
    (hfit : payload.length < (tdat_ensure src payload.length).cap) :
    ∃ src1, stdin_fill src payload.length (payload ++ 10 :: rest)
        = (src1, rest, fread_outcome.complete)
      ∧ src1.end_ = payload.length + 1 ∧ src1.content = payload ++ [10]
      ∧ src1.freed = src.freed ∧ src1.cap = (tdat_ensure src payload.length).cap := by
  have hmod : (payload.length + 1) % 2 ^ 64 = payload.length + 1 := by
    apply Nat.mod_eq_of_lt; simp [SIZE_MAX] at hL; omega
  unfold stdin_fill
  simp only [hmod, frame_take, frame_drop]
  have hlen : (payload ++ [10]).length = payload.length + 1 := by simp
  have hno : ¬ (tdat_ensure src payload.length).cap < payload.length + 1 := by omega
  simp only [hlen, ne_eq, not_true_eq_false, if_false, if_neg hno]
  refine ⟨_, rfl, rfl, ?_, ?_, rfl⟩
  · simp only [telega_dat.content, writeAt, List.take_zero, List.nil_append]
    rw [List.take_append_of_le_length (by simp), List.take_of_length_le (by simp)]
  · simp [tdat_ensure_freed]

theorem stdin_fill_overrun (src : telega_dat) (payload rest : List Nat)
    (hL : payload.length < SIZE_MAX)
    (hcap : (tdat_ensure src payload.length).cap ≤ payload.length) :
    ∃ src1, stdin_fill src payload.length (payload ++ 10 :: rest)
        = (src1, rest, fread_outcome.overrun)
      ∧ src1.end_ = payload.length + 1 ∧ src1.cap = (tdat_ensure src payload.length).cap := by
  have hmod : (payload.length + 1) % 2 ^ 64 = payload.length + 1 := by
    apply Nat.mod_eq_of_lt; simp [SIZE_MAX] at hL; omega
  unfold stdin_fill
  simp only [hmod, frame_take, frame_drop]
  have hlen : (payload ++ [10]).length = payload.length + 1 := by simp
  have hyes : (tdat_ensure src payload.length).cap < payload.length + 1 := by omega
  simp only [hlen, ne_eq, not_true_eq_false, if_false, if_pos hyes]
  exact ⟨_, rfl, rfl, rfl⟩

theorem tdat_ensure_fits (d : telega_dat) (n : Nat) (h0 : d.end_ = 0) (hn : n ≤ d.cap) :
    tdat_ensure d n = d := by
  unfold tdat_ensure; rw [h0]; simp [hn]

theorem stdin_iter_header (plist : transcoder) (s : stdin_state) (f : in_frame)
    (rest : List Nat) (hwf : f.wf) (hin : s.stdin = f.bytes ++ rest) :
    stdin_iter plist s
      = match stdin_fill s.plist_src f.payload.length (f.payload ++ 10 :: rest) with
        | (src, rest, .overrun) =>
          .exit { s with plist_src := src, stdin := rest, fault := true }
        | (src, rest, .short) =>
          .exit { s with plist_src := src, stdin := rest,
                         err := s.err ++ ascii "fread() error: 0\n" }
        | (src, rest, .complete) =>
          .next { plist_src := tdat_reset src,
                  json_dst := tdat_reset (tdat_append1 (tdat_value plist src s.json_dst) 0),
                  stdin := rest,
                  sent := if f.cmd = ascii "send"
                    then s.sent ++ [cstr (tdat_append1 (tdat_value plist src s.json_dst) 0).data]
                    else s.sent,
                  err := if f.cmd = ascii "send" then s.err
                    else s.err ++ ascii "Unknown command: " ++ f.cmd,
                  calls := s.calls ++ [src.content], fault := s.fault } := by
  obtain ⟨hf1, hf2, hf3⟩ := header_facts f hwf
  have hstream : s.stdin = (f.cmd ++ [32] ++ decimal f.payload.length)
      ++ 10 :: (f.payload ++ 10 :: rest) := by
    rw [hin]; simp [in_frame.bytes, in_frame.header]
  have hg := fgets_header _ (f.payload ++ 10 :: rest) hf1 hf2
  have hscan := sscanf_header f.cmd f.payload.length hwf.1 hwf.2.1 (Nat.le_of_lt hwf.2.2.2)
  unfold stdin_iter
  rw [hstream, hg]
  simp only [cstr_eq_self hf3, hscan, ne_eq, not_true_eq_false, if_false]
  rcases stdin_fill s.plist_src f.payload.length (f.payload ++ 10 :: rest) with ⟨src, r, rd⟩
  cases rd <;> rfl

theorem stdin_iter_frame (plist : transcoder) (s : stdin_state) (f : in_frame) (rest : List Nat)
    (hwf : f.wf) (hs : s.plist_src.end_ = 0) (hd : s.json_dst.end_ = 0)
    (hcap : f.payload.length < s.plist_src.cap)
    (hin : s.stdin = f.bytes ++ rest) :
    ∃ s1, stdin_iter plist s = .next s1 ∧ s1.stdin = rest
      ∧ s1.calls = s.calls ++ [f.payload ++ [10]]
      ∧ s1.sent = (if f.cmd = ascii "send"
          then s.sent ++ [cstr (plist (f.payload ++ [10])).out] else s.sent)
      ∧ s1.plist_src.end_ = 0 ∧ s1.json_dst.end_ = 0
      ∧ s1.plist_src.freed = s.plist_src.freed ∧ s1.json_dst.freed = s.json_dst.freed
      ∧ s1.plist_src.cap = s.plist_src.cap ∧ s1.fault = s.fault := by
  have hens := tdat_ensure_fits s.plist_src f.payload.length hs (Nat.le_of_lt hcap)
  obtain ⟨src1, hfill, he, hcont, hfr, hc1⟩ :=
    stdin_fill_frame s.plist_src f.payload rest hwf.2.2.2 (by rw [hens]; exact hcap)
  have hcs := cstr_converted plist src1 s.json_dst hd
  rw [stdin_iter_header plist s f rest hwf hin, hfill]
  refine ⟨_, rfl, rfl, ?_, ?_, rfl, rfl, ?_, ?_, ?_, rfl⟩
  · simp [hcont]
  · simp only [hcs, hcont]
  · simp [tdat_reset, hfr]
  · simp [tdat_reset, tdat_append1, tdat_value, tdat_append_freed]
  · simp [tdat_reset, hc1, hens]

theorem stdin_iter_overrun (plist : transcoder) (s : stdin_state) (f : in_frame)
    (rest : List Nat) (hwf : f.wf) (hs : s.plist_src.end_ = 0)
    (hcap : f.payload.length = s.plist_src.cap) (hin : s.stdin = f.bytes ++ rest) :
    ∃ s1, stdin_iter plist s = .exit s1 ∧ s1.fault = true ∧ s1.calls = s.calls
      ∧ s1.sent = s.sent ∧ s1.stdin = rest
      ∧ s1.plist_src.end_ = s.plist_src.cap + 1 ∧ s1.plist_src.cap = s.plist_src.cap := by
  have hens := tdat_ensure_fits s.plist_src f.payload.length hs (Nat.le_of_eq hcap)
  obtain ⟨src1, hfill, he, hc1⟩ :=
    stdin_fill_overrun s.plist_src f.payload rest hwf.2.2.2 (by rw [hens, hcap])
  rw [stdin_iter_header plist s f rest hwf hin, hfill]
  refine ⟨_, rfl, rfl, rfl, rfl, rfl, ?_, ?_⟩
  · simp [he, hcap]
  · simp [hc1, hens]

theorem stdin_iter_other_command (plist : transcoder) (s : stdin_state) (f : in_frame)
    (rest : List Nat) (hwf : f.wf) (hc : f.cmd ≠ ascii "send")
    (hin : s.stdin = f.bytes ++ rest) :
    (stdin_iter plist s).state.sent = s.sent := by
  rw [stdin_iter_header plist s f rest hwf hin]
  rcases stdin_fill s.plist_src f.payload.length (f.payload ++ 10 :: rest) with ⟨src, r, rd⟩
  cases rd <;> simp [iter_result.state, hc]

theorem stdin_passes_frames (plist : transcoder) : ∀ (fs : List in_frame) (s : stdin_state)
    (rest : List Nat), (∀ f ∈ fs, f.wf ∧ f.payload.length < s.plist_src.cap) →
    s.plist_src.end_ = 0 → s.json_dst.end_ = 0 →
    s.stdin = stream fs ++ rest →
    ∃ s1, stdin_passes plist fs.length s = some s1 ∧ s1.stdin = rest
      ∧ s1.calls = s.calls ++ fs.map (fun f => f.payload ++ [10])
      ∧ s1.sent = s.sent ++ (fs.filter (fun f => f.cmd = ascii "send")).map
          (fun f => cstr (plist (f.payload ++ [10])).out)
      ∧ s1.plist_src.end_ = 0 ∧ s1.json_dst.end_ = 0
      ∧ s1.plist_src.freed = s.plist_src.freed ∧ s1.json_dst.freed = s.json_dst.freed
      ∧ s1.plist_src.cap = s.plist_src.cap ∧ s1.fault = s.fault := by
  intro fs
  induction fs with
  | nil =>
    intro s rest _ hs hd hin
    exact ⟨s, rfl, by simpa [stream] using hin, by simp, by simp, hs, hd, rfl, rfl, rfl, rfl⟩
  | cons f fs ih =>
    intro s rest hwf hs hd hin
    have hin1 : s.stdin = f.bytes ++ (stream fs ++ rest) := by
      rw [hin]; simp [stream]
    obtain ⟨s1, h1, h2, h3, h4, h5, h6, h7, h8, h9, h10⟩ :=
      stdin_iter_frame plist s f (stream fs ++ rest) (hwf f (by simp)).1 hs hd
        (hwf f (by simp)).2 hin1
    obtain ⟨s2, g1, g2, g3, g4, g5, g6, g7, g8, g9, g10⟩ :=
      ih s1 rest (fun g hg => by rw [h9]; exact hwf g (by simp [hg])) h5 h6 h2
    refine ⟨s2, ?_, g2, ?_, ?_, g5, g6, g7.trans h7, g8.trans h8, g9.trans h9, g10.trans h10⟩
    · simp only [List.length_cons, stdin_passes, h1, g1]
    · rw [g3, h3]; simp
    · rw [g4, h4]
      by_cases hc : f.cmd = ascii "send"
      · simp [hc, List.filter_cons]
      · simp [hc, List.filter_cons]

theorem stdin_run_overrun (plist : transcoder) (f : in_frame) (rest : List Nat) (hwf : f.wf)
    (hcap : f.payload.length = 0) :
    ∃ s, stdin_loop plist (f.bytes ++ rest) = some s ∧ s.fault = true ∧ s.calls = []
      ∧ s.sent = [] ∧ s.stdin = rest ∧ s.plist_src.end_ = 1 ∧ s.plist_src.cap = 0 := by
  obtain ⟨s1, h1, h2, h3, h4, h5, h6, h7⟩ :=
    stdin_iter_overrun plist (stdin_init (f.bytes ++ rest)) f rest hwf rfl hcap rfl
  refine ⟨s1, ?_, h2, h3, h4, h5, h6, h7⟩
  simp only [stdin_loop, stdin_run, h1, h2, if_true]

/-! ## `parse_stdin` -/

theorem parse_read_step (src : telega_dat) (c : List Nat) (h1 : src.end_ + RDSIZE ≤ src.cap)
    (h2 : src.end_ ≤ src.data.length) (hc : c.length ≤ RDSIZE) :
    (parse_read src c).end_ ≤ (parse_read src c).cap
      ∧ (parse_read src c).end_ ≤ (parse_read src c).data.length
      ∧ (parse_read src c).content = src.content ++ c := by
  have hl : (List.take src.end_ src.data ++ c).length = src.end_ + c.length := by
    simp [List.length_take, h2]
  refine ⟨?_, ?_, ?_⟩
  · simp only [parse_read]; omega
  · simp only [parse_read, writeAt]
    rw [List.length_append, hl]; omega
  · simp only [parse_read, writeAt, telega_dat.content]
    rw [List.take_append_of_le_length (by omega), List.take_of_length_le (by omega)]

theorem parse_read_loop_inv : ∀ (cs : List (List Nat)) (src : telega_dat),
    (∀ c ∈ cs, 1 ≤ c.length ∧ c.length ≤ RDSIZE) → src.end_ + RDSIZE ≤ src.cap →
    src.end_ ≤ src.data.length →
    (parse_read_loop src cs).end_ + RDSIZE ≤ (parse_read_loop src cs).cap
      ∧ (parse_read_loop src cs).end_ ≤ (parse_read_loop src cs).data.length
      ∧ (parse_read_loop src cs).content = src.content ++ cs.flatten := by
  intro cs
  induction cs with
  | nil => intro src _ h1 h2; simp [parse_read_loop, h1, h2]
  | cons c cs ih =>
    intro src hc h1 h2
    have hc1 := hc c (by simp)
    obtain ⟨p1, p2, p3⟩ := parse_read_step src c h1 h2 hc1.2
    have hpos : 0 < c.length := hc1.1
    simp only [parse_read_loop, hpos, if_true]
    have q := ih (tdat_ensure (parse_read src c) RDSIZE) (fun x hx => hc x (by simp [hx]))
      (by rw [tdat_ensure_end]; exact tdat_ensure_free _ _)
      (by rw [tdat_ensure_end, tdat_ensure_data]; exact p2)
    refine ⟨q.1, q.2.1, ?_⟩
    rw [q.2.2]
    simp only [telega_dat.content, tdat_ensure_end, tdat_ensure_data] at p3 ⊢
    rw [p3]; simp

theorem parse_init_inv :
    (tdat_ensure TDAT_INIT RDSIZE).end_ + RDSIZE ≤ (tdat_ensure TDAT_INIT RDSIZE).cap
      ∧ (tdat_ensure TDAT_INIT RDSIZE).end_ ≤ (tdat_ensure TDAT_INIT RDSIZE).data.length
      ∧ (tdat_ensure TDAT_INIT RDSIZE).content = [] := by
  refine ⟨?_, ?_, ?_⟩
  · rw [tdat_ensure_end]; exact tdat_ensure_free _ _
  · rw [tdat_ensure_end]; simp [TDAT_INIT]
  · simp [telega_dat.content, tdat_ensure_end, TDAT_INIT]

theorem parse_source_content (reads : List (List Nat))
    (h : ∀ c ∈ reads, 1 ≤ c.length ∧ c.length ≤ RDSIZE) :
    (parse_source reads).content = reads.flatten ++ [0] := by
  obtain ⟨i1, i2, i3⟩ := parse_init_inv
  obtain ⟨q1, q2, q3⟩ := parse_read_loop_inv reads _ h i1 i2
  unfold parse_source tdat_append1
  rw [tdat_append_content _ _ q2, q3, i3]; simp

theorem parse_stdin_eq (json plist : transcoder) (mode : Nat) (reads : List (List Nat)) :
    parse_stdin json plist mode reads
      = { stdout := cstr ((if mode = PARSE_MODE_JSON then json else plist)
            (parse_source reads).content).out ++ [10],
          conv := [(if mode = PARSE_MODE_JSON then .json_value else .plist_value,
            (parse_source reads).content)] } := by
  unfold parse_stdin
  by_cases hm : mode = PARSE_MODE_JSON
  · simp only [hm, if_true]
    rw [cstr_converted _ _ _ rfl]
  · simp only [hm, if_false]
    rw [cstr_converted _ _ _ rfl]

/-! ## The option loop of `main` -/

theorem main_getopt_log : ∀ (post : List getopt_ret) (st : opt_state),
    (∀ x ∈ post, x.ch = 'v' ∨ x.ch = 'l') → (∀ c ∈ st.td, c.is_log = true) →
    (main_getopt post st).2 = false ∧ (main_getopt post st).1.parse_mode = st.parse_mode
      ∧ ∀ c ∈ (main_getopt post st).1.td, c.is_log = true := by
  intro post
  induction post with
  | nil => intro st _ h; exact ⟨rfl, rfl, h⟩
  | cons o os ih =>
    intro st h htd
    have hos : ∀ x ∈ os, x.ch = 'v' ∨ x.ch = 'l' := fun x hx => h x (by simp [hx])
    rcases h o (by simp) with hv | hl
    · simp only [main_getopt, hv, if_true]
      exact ih _ hos (by
        intro c hc
        rcases List.mem_append.1 hc with hc | hc
        · exact htd c hc
        · simp at hc; subst hc; rfl)
    · have hne : o.ch ≠ 'v' := by rw [hl]; decide
      simp only [main_getopt, hne, hl, if_true, if_false]
      exact ih _ hos (by
        intro c hc
        rcases List.mem_append.1 hc with hc | hc
        · exact htd c hc
        · simp at hc; subst hc; rfl)

theorem main_getopt_prefix : ∀ (pre rest : List getopt_ret) (st : opt_state),
    (∀ x ∈ pre, x.ch = 'v' ∨ x.ch = 'l' ∨ x.ch = 'j' ∨ x.ch = 'p') →
    (∀ c ∈ st.td, c.is_log = true) →
    ∃ st1, main_getopt (pre ++ rest) st = main_getopt rest st1
      ∧ ∀ c ∈ st1.td, c.is_log = true := by
  intro pre
  induction pre with
  | nil => intro rest st _ h; exact ⟨st, rfl, h⟩
  | cons o os ih =>
    intro rest st h htd
    have hos : ∀ x ∈ os, x.ch = 'v' ∨ x.ch = 'l' ∨ x.ch = 'j' ∨ x.ch = 'p' :=
      fun x hx => h x (by simp [hx])
    have hlog1 : ∀ v, ∀ c ∈ st.td ++ [td_call.set_log_verbosity_level v], c.is_log = true := by
      intro v c hc
      rcases List.mem_append.1 hc with hc | hc
      · exact htd c hc
      · simp at hc; subst hc; rfl
    have hlog2 : ∀ v, ∀ c ∈ st.td ++ [td_call.set_log_file_path v], c.is_log = true := by
      intro v c hc
      rcases List.mem_append.1 hc with hc | hc
      · exact htd c hc
      · simp at hc; subst hc; rfl
    rcases h o (by simp) with hv | hl | hj | hp
    · simp only [List.cons_append, main_getopt, hv, if_true]
      exact ih rest _ hos (hlog1 _)
    · have hne : o.ch ≠ 'v' := by rw [hl]; decide
      simp only [List.cons_append, main_getopt, hne, hl, if_true, if_false]
      exact ih rest _ hos (hlog2 _)
    · have hne : o.ch ≠ 'v' := by rw [hj]; decide
      have hne2 : o.ch ≠ 'l' := by rw [hj]; decide
      simp only [List.cons_append, main_getopt, hne, hne2, hj, if_true, if_false]
      exact ih rest _ hos htd
    · have hne : o.ch ≠ 'v' := by rw [hp]; decide
      have hne2 : o.ch ≠ 'l' := by rw [hp]; decide
      have hne3 : o.ch ≠ 'j' := by rw [hp]; decide
      simp only [List.cons_append, main_getopt, hne, hne2, hne3, hp, if_true, if_false]
      exact ih rest _ hos htd

theorem main_getopt_last (pre post : List getopt_ret) (o : getopt_ret)
    (hpre : ∀ x ∈ pre, x.ch = 'v' ∨ x.ch = 'l' ∨ x.ch = 'j' ∨ x.ch = 'p')
    (ho : o.ch = 'j' ∨ o.ch = 'p') (hpost : ∀ x ∈ post, x.ch = 'v' ∨ x.ch = 'l') :
    ∃ st1, main_getopt (pre ++ o :: post)
        { verbosity := 5, logfile := none, parse_mode := 0, td := [] } = (st1, false)
      ∧ st1.parse_mode = (if o.ch = 'j' then PARSE_MODE_JSON else PARSE_MODE_PLIST)
      ∧ ∀ c ∈ st1.td, c.is_log = true := by
  obtain ⟨st1, h1, h2⟩ := main_getopt_prefix pre (o :: post)
    { verbosity := 5, logfile := none, parse_mode := 0, td := [] } hpre (by simp)
  rcases ho with hj | hp
  · have hne : o.ch ≠ 'v' := by rw [hj]; decide
    have hne2 : o.ch ≠ 'l' := by rw [hj]; decide
    obtain ⟨g1, g2, g3⟩ := main_getopt_log post { st1 with parse_mode := PARSE_MODE_JSON }
      hpost h2
    refine ⟨(main_getopt post { st1 with parse_mode := PARSE_MODE_JSON }).1, ?_, ?_, g3⟩
    · rw [h1]
      simp only [main_getopt, hne, hne2, hj, if_true, if_false]
      exact Prod.ext rfl g1
    · rw [g2]; simp [hj]
  · have hne : o.ch ≠ 'v' := by rw [hp]; decide
    have hne2 : o.ch ≠ 'l' := by rw [hp]; decide
    have hne3 : o.ch ≠ 'j' := by rw [hp]; decide
    obtain ⟨g1, g2, g3⟩ := main_getopt_log post { st1 with parse_mode := PARSE_MODE_PLIST }
      hpost h2
    refine ⟨(main_getopt post { st1 with parse_mode := PARSE_MODE_PLIST }).1, ?_, ?_, g3⟩
    · rw [h1]
      simp only [main_getopt, hne, hne2, hne3, hp, if_true, if_false]
      exact Prod.ext rfl g1
    · rw [g2]; simp [hne3]

/-! ## Invariants of `stdin_loop` on any input; the outcome of a conversion is not read -/

theorem skipws_cons (c : Nat) (r : List Nat) (h : isspace c = false) :
    skipws (c :: r) = c :: r := by
  simp [skipws, List.dropWhile_cons, h]

theorem expect_append (lit r : List Nat) : expect lit (lit ++ r) = some r := by
  unfold expect
  have h : lit.isPrefixOf (lit ++ r) = true := by
    rw [List.isPrefixOf_iff_prefix]; exact List.prefix_append _ _
  simp [h]

theorem hexval_hexdigit : ∀ n, n < 16 → hexval (hexdigit n) = some n := by
  decide

theorem scan_string_escape1 (c : Nat) (t : List Nat) (p : List Nat × List Nat)
    (h : scan_string t = some p) : scan_string (escape1 c ++ t) = some (c :: p.1, p.2) := by
  unfold escape1
  by_cases h34 : c = 34
  · subst h34
    simp only [if_true, List.cons_append, List.nil_append]
    rw [scan_string.eq_def]
    simp [h]
  · by_cases h92 : c = 92
    · subst h92
      simp only [if_true, if_false, List.cons_append, List.nil_append]
      rw [scan_string.eq_def]
      simp [h]
    · by_cases hlt : c < 32
      · have h1 := hexval_hexdigit (c / 16) (by omega)
        have h2 := hexval_hexdigit (c % 16) (by omega)
        have h0 : hexval 48 = some 0 := by decide
        simp only [h34, h92, hlt, if_false, if_true, List.cons_append, List.nil_append]
        rw [scan_string.eq_def]
        simp only [show (92 : Nat) ≠ 34 by decide, if_false, if_true]
        simp only [show ¬ ((117 : Nat) = 34 ∨ (117 : Nat) = 92) by decide,
          show (117 : Nat) ≠ 110 by decide, show (117 : Nat) ≠ 116 by decide, if_false, if_true,
          h0, h1, h2, h, Option.map_some']
        have : ((0 * 16 + 0) * 16 + c / 16) * 16 + c % 16 = c := by omega
        rw [this]
      · simp only [h34, h92, hlt, if_false, List.cons_append, List.nil_append]
        rw [scan_string.eq_def]
        simp only [h34, h92, if_false, h, Option.map_some']

theorem scan_string_escape (s rest : List Nat) :
    scan_string (escape s ++ 34 :: rest) = some (s, rest) := by
  induction s with
  | nil => rw [scan_string.eq_def]; simp [escape]
  | cons c cs ih =>
    simp only [escape, List.append_assoc]
    exact scan_string_escape1 c _ _ ih

theorem scan_string_quoted (s rest : List Nat) :
    quoted s ++ rest = 34 :: (escape s ++ 34 :: rest) := by
  simp [quoted]

theorem takeWhile_digits (ds rest : List Nat) (hd : ∀ c ∈ ds, isdigit c = true)
    (hr : ∀ c, rest.head? = some c → isdigit c = false) :
    (ds ++ rest).takeWhile isdigit = ds ∧ (ds ++ rest).dropWhile isdigit = rest := by
  cases rest with
  | nil =>
    simp only [List.append_nil]
    exact ⟨List.takeWhile_eq_self_iff.2 hd, List.dropWhile_eq_nil_iff.2 hd⟩
  | cons b r =>
    have hb : isdigit b = false := hr b rfl
    exact ⟨takeWhile_append_stop ds b r hd hb, dropWhile_append_stop ds b r hd hb⟩

theorem decimal_digits (n : Nat) : ∀ c ∈ decimal n, isdigit c = true :=
  fun c hc => (digit_facts ((decimal_spec n).2.1 c hc)).1

theorem decimal_head (n : Nat) : ∃ c t, decimal n = c :: t ∧ 48 ≤ c ∧ c ≤ 57 := by
  obtain ⟨h1, h2, -⟩ := decimal_spec n
  obtain ⟨c, t, h⟩ := List.exists_cons_of_ne_nil h1
  exact ⟨c, t, h, h2 c (by simp [h])⟩

theorem parse_number_nat (n : Nat) (rest : List Nat) (hr : num_end rest) :
    parse_number (decimal n ++ rest) = some (Value.int n, rest) := by
  obtain ⟨c, t, hc, hc1, hc2⟩ := decimal_head n
  obtain ⟨h1, -, h3⟩ := decimal_spec n
  obtain ⟨e1, e2⟩ := takeWhile_digits (decimal n) rest (decimal_digits n) (fun c h => (hr c h).1)
  have hh : (decimal n ++ rest).head? = some c := by simp [hc]
  have hneg : ((decimal n ++ rest).head? == some 45) = false := by
    rw [hh]; simp; omega
  unfold parse_number
  simp only [hneg, Bool.false_eq_true, if_false, e1, e2, if_neg h1, h3]
  split
  · exact absurd rfl (hr 46 rfl).2
  · rfl

theorem parse_number_int (i : Int) (rest : List Nat) (hr : num_end rest) :
    parse_number (number_int i ++ rest) = some (Value.int i, rest) := by
  unfold number_int
  by_cases hi : i < 0
  · obtain ⟨h1, -, h3⟩ := decimal_spec i.natAbs
    obtain ⟨e1, e2⟩ := takeWhile_digits (decimal i.natAbs) rest (decimal_digits _)
      (fun c h => (hr c h).1)
    simp only [hi, if_true, List.cons_append]
    unfold parse_number
    simp only [List.head?_cons, beq_self_eq_true, if_true, List.tail_cons, e1, e2, if_neg h1, h3]
    have hv : -(i.natAbs : Int) = i := by omega
    split
    · exact absurd rfl (hr 46 rfl).2
    · rw [hv]
  · simp only [hi, if_false]
    have hv : ((i.natAbs : Nat) : Int) = i := by omega
    rw [parse_number_nat _ _ hr, hv]

theorem todigit_fdigit (d : Fin 10) : todigit (fdigit d) = d := by
  apply Fin.ext
  simp only [todigit, fdigit]
  have := d.isLt
  omega

theorem fdigit_isdigit (d : Fin 10) : isdigit (fdigit d) = true := by
  have := d.isLt
  simp [isdigit, fdigit]; omega

theorem parse_number_unsigned_float (neg : Bool) (whole : Nat) (d : Fin 10) (ds : List (Fin 10))
    (rest : List Nat) (x : Int) (hr : num_end rest) :
    (match (decimal whole ++ 46 :: fdigit d :: (ds.map fdigit ++ rest)).dropWhile isdigit with
      | 46 :: r1 =>
        match r1.takeWhile isdigit with
        | [] => none
        | f :: fs =>
          some (Value.float neg
            (digitsValue ((decimal whole ++ 46 :: fdigit d :: (ds.map fdigit ++ rest)).takeWhile
              isdigit)) (todigit f) (fs.map todigit), r1.dropWhile isdigit)
      | r => some (Value.int x, r))
      = some (Value.float neg whole d ds, rest) := by
  obtain ⟨h1, -, h3⟩ := decimal_spec whole
  have e1 := takeWhile_append_stop (p := isdigit) (decimal whole) 46
    (fdigit d :: (ds.map fdigit ++ rest)) (decimal_digits _) (by decide)
  have e2 := dropWhile_append_stop (p := isdigit) (decimal whole) 46
    (fdigit d :: (ds.map fdigit ++ rest)) (decimal_digits _) (by decide)
  have hF : ∀ c ∈ fdigit d :: ds.map fdigit, isdigit c = true := by
    intro c hc
    rcases List.mem_cons.1 hc with h | h
    · rw [h]; exact fdigit_isdigit d
    · obtain ⟨x, -, hx⟩ := List.mem_map.1 h
      rw [← hx]; exact fdigit_isdigit x
  obtain ⟨e3, e4⟩ := takeWhile_digits (fdigit d :: ds.map fdigit) rest hF (fun c h => (hr c h).1)
  simp only [List.cons_append] at e3 e4
  rw [e1, e2]
  simp only [e3, e4, h3, todigit_fdigit, List.map_map]
  have : (todigit ∘ fdigit) = id := funext todigit_fdigit
  rw [this, List.map_id]

theorem parse_number_float (neg : Bool) (whole : Nat) (d : Fin 10) (ds : List (Fin 10))
    (rest : List Nat) (hr : num_end rest) :
    parse_number (number_float neg whole d ds ++ rest)
      = some (Value.float neg whole d ds, rest) := by
  obtain ⟨c, t, hc, hc1, hc2⟩ := decimal_head whole
  obtain ⟨h1, -, h3⟩ := decimal_spec whole
  have e1 := takeWhile_append_stop (p := isdigit) (decimal whole) 46
    (fdigit d :: (ds.map fdigit ++ rest)) (decimal_digits _) (by decide)
  have key := fun x => parse_number_unsigned_float neg whole d ds rest x hr
  unfold number_float parse_number
  cases neg with
  | true =>
    simp only [if_true, List.cons_append, List.nil_append, List.append_assoc,
      List.head?_cons, beq_self_eq_true, List.tail_cons, e1, if_neg h1]
    simp only [e1] at key
    exact key _
  | false =>
    have hh : ((decimal whole ++ 46 :: fdigit d :: (ds.map fdigit ++ rest)).head? == some 45)
        = false := by
      rw [hc]; simp; omega
    simp only [Bool.false_eq_true, if_false, List.cons_append, List.nil_append,
      List.append_assoc, hh, e1, if_neg h1]
    simp only [e1] at key
    exact key _

theorem value_head_facts {c : Nat} (h : value_head c) :
    isspace c = false ∧ c ≠ 93 ∧ c ≠ 125 ∧ c ≠ 41 ∧ c ≠ 44 ∧ c ≠ 58 ∧ c ≠ 32 := by
  unfold value_head at h
  refine ⟨?_, by omega, by omega, by omega, by omega, by omega, by omega⟩
  simp [isspace]; omega

theorem number_int_head (i : Int) : ∃ c t, number_int i = c :: t ∧ (c = 45 ∨ (48 ≤ c ∧ c ≤ 57)) := by
  unfold number_int
  obtain ⟨c, t, hc, hc1, hc2⟩ := decimal_head i.natAbs
  split
  · exact ⟨45, _, rfl, Or.inl rfl⟩
  · exact ⟨c, t, hc, Or.inr ⟨hc1, hc2⟩⟩

theorem number_float_head (neg : Bool) (whole : Nat) (d : Fin 10) (ds : List (Fin 10)) :
    ∃ c t, number_float neg whole d ds = c :: t ∧ (c = 45 ∨ (48 ≤ c ∧ c ≤ 57)) := by
  unfold number_float
  obtain ⟨c, t, hc, hc1, hc2⟩ := decimal_head whole
  cases neg with
  | true => exact ⟨45, _, rfl, Or.inl rfl⟩
  | false => exact ⟨c, t ++ 46 :: fdigit d :: ds.map fdigit, by simp [hc], Or.inr ⟨hc1, hc2⟩⟩

theorem value_size_pos (v : Value) : 0 < v.size := by
  cases v with
  | arr vs => cases vs <;> simp [Value.size]
  | obj ms => cases ms <;> simp [Value.size]
  | _ => simp [Value.size]

theorem values_size_pos (vs : Values) : 0 < vs.size := by
  cases vs <;> simp [Values.size]

theorem members_size_pos (ms : Members) : 0 < ms.size := by
  cases ms <;> simp [Members.size]

theorem json_of_head (v : Value) : ∃ c t, json_of v = c :: t ∧ value_head c := by
  cases v with
  | null => exact ⟨110, _, rfl, by simp [value_head]⟩
  | bool b =>
    cases b
    · exact ⟨102, _, rfl, by simp [value_head]⟩
    · exact ⟨116, _, rfl, by simp [value_head]⟩
  | int i =>
    obtain ⟨c, t, h1, h2⟩ := number_int_head i
    exact ⟨c, t, by simp [json_of, h1], by unfold value_head; omega⟩
  | float neg whole d ds =>
    obtain ⟨c, t, h1, h2⟩ := number_float_head neg whole d ds
    exact ⟨c, t, by simp [json_of, h1], by unfold value_head; omega⟩
  | str s => exact ⟨34, _, rfl, by simp [value_head]⟩
  | arr vs =>
    cases vs with
    | nil => exact ⟨91, _, rfl, by simp [value_head]⟩
    | cons v vs =>
      exact ⟨91, json_of v ++ json_of_elements vs, by rw [json_of]; rfl, by simp [value_head]⟩
  | obj ms =>
    cases ms with
    | nil => exact ⟨123, _, rfl, by simp [value_head]⟩
    | cons k v ms =>
      exact ⟨123, quoted k ++ 58 :: json_of v ++ json_of_members ms, by rw [json_of]; rfl,
        by simp [value_head]⟩

theorem json_of_elements_head (vs : Values) :
    ∃ c t, json_of_elements vs = c :: t ∧ (c = 93 ∨ c = 44) := by
  cases vs with
  | nil => exact ⟨93, _, rfl, Or.inl rfl⟩
  | cons v vs => exact ⟨44, json_of v ++ json_of_elements vs, by rw [json_of_elements]; rfl, Or.inr rfl⟩

theorem json_of_members_head (ms : Members) :
    ∃ c t, json_of_members ms = c :: t ∧ (c = 125 ∨ c = 44) := by
  cases ms with
  | nil => exact ⟨125, _, rfl, Or.inl rfl⟩
  | cons k v ms =>
    exact ⟨44, quoted k ++ 58 :: json_of v ++ json_of_members ms, by rw [json_of_members]; rfl,
      Or.inr rfl⟩

theorem num_end_of_head (s rest : List Nat) (c : Nat) (t : List Nat) (h : s = c :: t)
    (hc : isdigit c = false ∧ c ≠ 46) : num_end (s ++ rest) := by
  intro x hx
  rw [h] at hx
  simp at hx
  rw [← hx]; exact hc

/-- Dispatch of `json_value` on a text that starts with a number. -/
theorem json_value_number (n : Nat) (c : Nat) (t : List Nat)
    (hc : c = 45 ∨ (48 ≤ c ∧ c ≤ 57)) :
    json_value (n + 1) (c :: t) = parse_number (c :: t) := by
  have hsp : isspace c = false := by simp [isspace]; omega
  rw [json_value, skipws_cons c t hsp]
  simp only [show c ≠ 110 by omega, show c ≠ 116 by omega, show c ≠ 102 by omega,
    show c ≠ 34 by omega, show c ≠ 91 by omega, show c ≠ 123 by omega, if_false]

theorem json_member_ok (n : Nat) (k : List Nat) (v : Value) (ms : Members) (rest : List Nat)
    (hv : ∀ r, num_end r → json_value n (json_of v ++ r) = some (v, r))
    (hms : json_members n (json_of_members ms ++ rest) = some (ms, rest)) :
    json_member (n + 1) (quoted k ++ 58 :: (json_of v ++ (json_of_members ms ++ rest)))
      = some (Members.cons k v ms, rest) := by
  obtain ⟨c, t, hh, hc⟩ := json_of_members_head ms
  have hne : num_end (json_of_members ms ++ rest) :=
    num_end_of_head _ rest c t hh (by rcases hc with h | h <;> subst h <;> decide)
  rw [json_member, scan_string_quoted, skipws_cons 34 _ (by decide)]
  simp only [if_true, scan_string_escape, skipws_cons 58 _ (by decide), List.head?_cons,
    List.tail_cons, hv _ hne, hms]

theorem number_int_length_pos (i : Int) : 0 < (number_int i).length := by
  obtain ⟨c, t, h, -⟩ := number_int_head i
  rw [h]; simp

theorem number_float_length_pos (neg : Bool) (whole : Nat) (d : Fin 10) (ds : List (Fin 10)) :
    0 < (number_float neg whole d ds).length := by
  obtain ⟨c, t, h, -⟩ := number_float_head neg whole d ds
  rw [h]; simp

mutual
theorem json_of_length : ∀ v : Value, v.size ≤ (json_of v).length
  | .null => by simp [Value.size, json_of, ascii]
  | .bool true => by simp [Value.size, json_of, ascii]
  | .bool false => by simp [Value.size, json_of, ascii]
  | .int i => by
    have := number_int_length_pos i
    simp only [Value.size, json_of]; omega
  | .float neg whole d ds => by
    have := number_float_length_pos neg whole d ds
    simp only [Value.size, json_of]; omega
  | .str s => by simp [Value.size, json_of, quoted]
  | .arr .nil => by simp [Value.size, json_of, ascii]
  | .arr (.cons v vs) => by
    have h1 := json_of_length v
    have h2 := json_of_elements_length vs
    simp only [Value.size, json_of, List.length_cons, List.length_append]; omega
  | .obj .nil => by simp [Value.size, json_of, ascii]
  | .obj (.cons k v ms) => by
    have h1 := json_of_length v
    have h2 := json_of_members_length ms
    simp only [Value.size, json_of, quoted, List.length_cons, List.length_append]; omega
theorem json_of_elements_length : ∀ vs : Values, vs.size ≤ (json_of_elements vs).length
  | .nil => by simp [Values.size, json_of_elements]
  | .cons v vs => by
    have h1 := json_of_length v
    have h2 := json_of_elements_length vs
    simp only [Values.size, json_of_elements, List.length_cons, List.length_append]; omega
theorem json_of_members_length : ∀ ms : Members, ms.size ≤ (json_of_members ms).length
  | .nil => by simp [Members.size, json_of_members]
  | .cons k v ms => by
    have h1 := json_of_length v
    have h2 := json_of_members_length ms
    simp only [Members.size, json_of_members, quoted, List.length_cons, List.length_append]
    omega
end

mutual
theorem plist_of_length : ∀ v : Value, v.size ≤ (plist_of v).length
  | .null => by simp [Value.size, plist_of, ascii]
  | .bool true => by simp [Value.size, plist_of, ascii]
  | .bool false => by simp [Value.size, plist_of, ascii]
  | .int i => by
    have := number_int_length_pos i
    simp only [Value.size, plist_of]; omega
  | .float neg whole d ds => by
    have := number_float_length_pos neg whole d ds
    simp only [Value.size, plist_of]; omega
  | .str s => by simp [Value.size, plist_of, quoted]
  | .arr .nil => by simp [Value.size, plist_of, ascii]
  | .arr (.cons v vs) => by
    have h1 := plist_of_length v
    have h2 := plist_of_elements_length vs
    simp only [Value.size, plist_of, List.length_cons, List.length_append]; omega
  | .obj .nil => by simp [Value.size, plist_of, ascii]
  | .obj (.cons k v ms) => by
    have h1 := plist_of_length v
    have h2 := plist_of_members_length ms
    simp only [Value.size, plist_of, List.length_cons, List.length_append]; omega
theorem plist_of_elements_length : ∀ vs : Values, vs.size ≤ (plist_of_elements vs).length
  | .nil => by simp [Values.size, plist_of_elements]
  | .cons v vs => by
    have h1 := plist_of_length v
    have h2 := plist_of_elements_length vs
    simp only [Values.size, plist_of_elements, List.length_cons, List.length_append]; omega
theorem plist_of_members_length : ∀ ms : Members, ms.size ≤ (plist_of_members ms).length
  | .nil => by simp [Members.size, plist_of_members]
  | .cons k v ms => by
    have h1 := plist_of_length v
    have h2 := plist_of_members_length ms
    simp only [Members.size, plist_of_members, List.length_cons, List.length_append]
    omega
end

mutual
theorem json_value_of : ∀ (v : Value) (n : Nat) (rest : List Nat), v.size < n → num_end rest →
    json_value n (json_of v ++ rest) = some (v, rest)
  | .null, n, rest, h, _ => by
    obtain ⟨m, rfl⟩ : ∃ m, n = m + 1 := ⟨n - 1, by omega⟩
    have e : json_of Value.null ++ rest = 110 :: (ascii "ull" ++ rest) := rfl
    rw [e, json_value, skipws_cons 110 _ (by decide)]
    simp only [if_true, expect_append, Option.map_some']
  | .bool true, n, rest, h, _ => by
    obtain ⟨m, rfl⟩ : ∃ m, n = m + 1 := ⟨n - 1, by omega⟩
    have e : json_of (Value.bool true) ++ rest = 116 :: (ascii "rue" ++ rest) := rfl
    rw [e, json_value, skipws_cons 116 _ (by decide)]
    simp only [show (116 : Nat) ≠ 110 by decide, if_false, if_true, expect_append,
      Option.map_some']
  | .bool false, n, rest, h, _ => by
    obtain ⟨m, rfl⟩ : ∃ m, n = m + 1 := ⟨n - 1, by omega⟩
    have e : json_of (Value.bool false) ++ rest = 102 :: (ascii "alse" ++ rest) := rfl
    rw [e, json_value, skipws_cons 102 _ (by decide)]
    simp only [show (102 : Nat) ≠ 110 by decide, show (102 : Nat) ≠ 116 by decide, if_false,
      if_true, expect_append, Option.map_some']
  | .int i, n, rest, h, hr => by
    obtain ⟨m, rfl⟩ : ∃ m, n = m + 1 := ⟨n - 1, by omega⟩
    obtain ⟨c, t, hc, hc1⟩ := number_int_head i
    have e : json_of (Value.int i) = number_int i := by rw [json_of]
    rw [e]
    have e2 : number_int i ++ rest = c :: (t ++ rest) := by rw [hc]; rfl
    rw [e2, json_value_number m c _ hc1, ← e2]
    exact parse_number_int i rest hr
  | .float neg whole d ds, n, rest, h, hr => by
    obtain ⟨m, rfl⟩ : ∃ m, n = m + 1 := ⟨n - 1, by omega⟩
    obtain ⟨c, t, hc, hc1⟩ := number_float_head neg whole d ds
    have e : json_of (Value.float neg whole d ds) = number_float neg whole d ds := by
      rw [json_of]
    rw [e]
    have e2 : number_float neg whole d ds ++ rest = c :: (t ++ rest) := by rw [hc]; rfl
    rw [e2, json_value_number m c _ hc1, ← e2]
    exact parse_number_float neg whole d ds rest hr
  | .str s, n, rest, h, _ => by
    obtain ⟨m, rfl⟩ : ∃ m, n = m + 1 := ⟨n - 1, by omega⟩
    have e : json_of (Value.str s) = quoted s := by rw [json_of]
    rw [e, scan_string_quoted, json_value, skipws_cons 34 _ (by decide)]
    simp only [show (34 : Nat) ≠ 110 by decide, show (34 : Nat) ≠ 116 by decide,
      show (34 : Nat) ≠ 102 by decide, if_false, if_true, scan_string_escape, Option.map_some']
  | .arr .nil, n, rest, h, _ => by
    obtain ⟨m, rfl⟩ : ∃ m, n = m + 1 := ⟨n - 1, by omega⟩
    have e : json_of (Value.arr Values.nil) ++ rest = 91 :: 93 :: rest := rfl
    rw [e, json_value, skipws_cons 91 _ (by decide)]
    simp only [show (91 : Nat) ≠ 110 by decide, show (91 : Nat) ≠ 116 by decide,
      show (91 : Nat) ≠ 102 by decide, show (91 : Nat) ≠ 34 by decide, if_false, if_true,
      skipws_cons 93 _ (by decide), List.head?_cons, List.tail_cons]
  | .arr (.cons v vs), n, rest, h, _ => by
    obtain ⟨m, rfl⟩ : ∃ m, n = m + 1 := ⟨n - 1, by omega⟩
    simp only [Value.size] at h
    have hpv := value_size_pos v
    have hpvs := values_size_pos vs
    obtain ⟨c, t, hc, hc1⟩ := json_of_head v
    obtain ⟨b, u, hb, hb1⟩ := json_of_elements_head vs
    have hf := value_head_facts hc1
    have hne : num_end (json_of_elements vs ++ rest) :=
      num_end_of_head _ rest b u hb (by rcases hb1 with h | h <;> subst h <;> decide)
    have iv := json_value_of v m (json_of_elements vs ++ rest) (by omega) hne
    have ie := json_elements_of vs m rest (by omega)
    have e : json_of (Value.arr (Values.cons v vs)) ++ rest
        = 91 :: (json_of v ++ (json_of_elements vs ++ rest)) := by
      rw [json_of]; simp
    have e2 : skipws (json_of v ++ (json_of_elements vs ++ rest))
        = c :: (t ++ (json_of_elements vs ++ rest)) := by
      rw [hc]; exact skipws_cons c _ hf.1
    rw [e, json_value, skipws_cons 91 _ (by decide)]
    simp only [show (91 : Nat) ≠ 110 by decide, show (91 : Nat) ≠ 116 by decide,
      show (91 : Nat) ≠ 102 by decide, show (91 : Nat) ≠ 34 by decide, if_false, if_true, e2,
      List.head?_cons, Option.some.injEq, hf.2.1, iv, ie]
  | .obj .nil, n, rest, h, _ => by
    obtain ⟨m, rfl⟩ : ∃ m, n = m + 1 := ⟨n - 1, by omega⟩
    have e : json_of (Value.obj Members.nil) ++ rest = 123 :: 125 :: rest := rfl
    rw [e, json_value, skipws_cons 123 _ (by decide)]
    simp only [show (123 : Nat) ≠ 110 by decide, show (123 : Nat) ≠ 116 by decide,
      show (123 : Nat) ≠ 102 by decide, show (123 : Nat) ≠ 34 by decide,
      show (123 : Nat) ≠ 91 by decide, if_false, if_true,
      skipws_cons 125 _ (by decide), List.head?_cons, List.tail_cons]
  | .obj (.cons k v ms), n, rest, h, _ => by
    obtain ⟨m, rfl⟩ : ∃ m, n = m + 1 := ⟨n - 1, by omega⟩
    simp only [Value.size] at h
    have hpv := value_size_pos v
    have hpms := members_size_pos ms
    obtain ⟨p, rfl⟩ : ∃ p, m = p + 1 := ⟨m - 1, by omega⟩
    have im := json_members_of ms p rest (by omega)
    have hmem := json_member_ok p k v ms rest
      (fun r hr => json_value_of v p r (by omega) hr) im
    have e : json_of (Value.obj (Members.cons k v ms)) ++ rest
        = 123 :: (quoted k ++ 58 :: (json_of v ++ (json_of_members ms ++ rest))) := by
      rw [json_of]; simp
    have e2 : skipws (quoted k ++ 58 :: (json_of v ++ (json_of_members ms ++ rest)))
        = quoted k ++ 58 :: (json_of v ++ (json_of_members ms ++ rest)) := by
      rw [scan_string_quoted]; exact skipws_cons 34 _ (by decide)
    rw [e, json_value, skipws_cons 123 _ (by decide)]
    simp only [show (123 : Nat) ≠ 110 by decide, show (123 : Nat) ≠ 116 by decide,
      show (123 : Nat) ≠ 102 by decide, show (123 : Nat) ≠ 34 by decide,
      show (123 : Nat) ≠ 91 by decide, if_false, if_true, e2, hmem]
    simp [scan_string_quoted]
theorem json_elements_of : ∀ (vs : Values) (n : Nat) (rest : List Nat), vs.size < n →
    json_elements n (json_of_elements vs ++ rest) = some (vs, rest)
  | .nil, n, rest, h => by
    obtain ⟨m, rfl⟩ : ∃ m, n = m + 1 := ⟨n - 1, by omega⟩
    have e : json_of_elements Values.nil ++ rest = 93 :: rest := rfl
    rw [e, json_elements, skipws_cons 93 _ (by decide)]
    simp only [if_true]
  | .cons v vs, n, rest, h => by
    obtain ⟨m, rfl⟩ : ∃ m, n = m + 1 := ⟨n - 1, by omega⟩
    simp only [Values.size] at h
    have hv := value_size_pos v
    have hvs := values_size_pos vs
    obtain ⟨b, u, hb, hb1⟩ := json_of_elements_head vs
    have hne : num_end (json_of_elements vs ++ rest) :=
      num_end_of_head _ rest b u hb (by rcases hb1 with h | h <;> subst h <;> decide)
    have iv := json_value_of v m (json_of_elements vs ++ rest) (by omega) hne
    have ie := json_elements_of vs m rest (by omega)
    have e : json_of_elements (Values.cons v vs) ++ rest
        = 44 :: (json_of v ++ (json_of_elements vs ++ rest)) := by
      rw [json_of_elements]; simp
    rw [e, json_elements, skipws_cons 44 _ (by decide)]
    simp only [show (44 : Nat) ≠ 93 by decide, if_false, if_true, iv, ie]
theorem json_members_of : ∀ (ms : Members) (n : Nat) (rest : List Nat), ms.size < n →
    json_members n (json_of_members ms ++ rest) = some (ms, rest)
  | .nil, n, rest, h => by
    obtain ⟨m, rfl⟩ : ∃ m, n = m + 1 := ⟨n - 1, by omega⟩
    have e : json_of_members Members.nil ++ rest = 125 :: rest := rfl
    rw [e, json_members, skipws_cons 125 _ (by decide)]
    simp only [if_true]
  | .cons k v ms, n, rest, h => by
    obtain ⟨m, rfl⟩ : ∃ m, n = m + 1 := ⟨n - 1, by omega⟩
    simp only [Members.size] at h
    have hpv := value_size_pos v
    have hpms := members_size_pos ms
    obtain ⟨p, rfl⟩ : ∃ p, m = p + 1 := ⟨m - 1, by omega⟩
    have im := json_members_of ms p rest (by omega)
    have hmem := json_member_ok p k v ms rest
      (fun r hr => json_value_of v p r (by omega) hr) im
    have e : json_of_members (Members.cons k v ms) ++ rest
        = 44 :: (quoted k ++ 58 :: (json_of v ++ (json_of_members ms ++ rest))) := by
      rw [json_of_members]; simp
    rw [e, json_members, skipws_cons 44 _ (by decide)]
    simp only [show (44 : Nat) ≠ 125 by decide, if_false, if_true, hmem]
end

theorem plist_of_head (v : Value) : ∃ c t, plist_of v = c :: t ∧ value_head c := by
  cases v with
  | null => exact ⟨110, _, rfl, by simp [value_head]⟩
  | bool b =>
    cases b
    · exact ⟨102, _, rfl, by simp [value_head]⟩
    · exact ⟨116, _, rfl, by simp [value_head]⟩
  | int i =>
    obtain ⟨c, t, h1, h2⟩ := number_int_head i
    exact ⟨c, t, by simp [plist_of, h1], by unfold value_head; omega⟩
  | float neg whole d ds =>
    obtain ⟨c, t, h1, h2⟩ := number_float_head neg whole d ds
    exact ⟨c, t, by simp [plist_of, h1], by unfold value_head; omega⟩
  | str s => exact ⟨34, _, rfl, by simp [value_head]⟩
  | arr vs =>
    cases vs with
    | nil => exact ⟨91, _, rfl, by simp [value_head]⟩
    | cons v vs =>
      exact ⟨91, plist_of v ++ plist_of_elements vs, by rw [plist_of]; rfl, by simp [value_head]⟩
  | obj ms =>
    cases ms with
    | nil => exact ⟨40, _, rfl, by simp [value_head]⟩
    | cons k v ms =>
      exact ⟨40, 58 :: k ++ 32 :: plist_of v ++ plist_of_members ms, by rw [plist_of]; rfl,
        by simp [value_head]⟩

theorem plist_of_elements_head (vs : Values) :
    ∃ c t, plist_of_elements vs = c :: t ∧ (c = 93 ∨ c = 32) := by
  cases vs with
  | nil => exact ⟨93, _, rfl, Or.inl rfl⟩
  | cons v vs =>
    exact ⟨32, plist_of v ++ plist_of_elements vs, by rw [plist_of_elements]; rfl, Or.inr rfl⟩

theorem plist_of_members_head (ms : Members) :
    ∃ c t, plist_of_members ms = c :: t ∧ (c = 41 ∨ c = 32) := by
  cases ms with
  | nil => exact ⟨41, _, rfl, Or.inl rfl⟩
  | cons k v ms =>
    exact ⟨32, 58 :: k ++ 32 :: plist_of v ++ plist_of_members ms, by rw [plist_of_members]; rfl,
      Or.inr rfl⟩

theorem skipws_space (s : List Nat) : skipws (32 :: s) = skipws s := by
  simp [skipws, List.dropWhile_cons, isspace]

theorem plist_value_space (n : Nat) (s : List Nat) :
    plist_value n (32 :: s) = plist_value n s := by
  cases n with
  | zero => simp [plist_value]
  | succ m => rw [plist_value, plist_value, skipws_space]

/-- Dispatch of `plist_value` on a text that starts with a number. -/
theorem plist_value_number (n : Nat) (c : Nat) (t : List Nat)
    (hc : c = 45 ∨ (48 ≤ c ∧ c ≤ 57)) :
    plist_value (n + 1) (c :: t) = parse_number (c :: t) := by
  have hsp : isspace c = false := by simp [isspace]; omega
  rw [plist_value, skipws_cons c t hsp]
  simp only [show c ≠ 110 by omega, show c ≠ 116 by omega, show c ≠ 102 by omega,
    show c ≠ 34 by omega, show c ≠ 91 by omega, show c ≠ 40 by omega, if_false]

theorem plist_member_ok (n : Nat) (k : List Nat) (v : Value) (ms : Members) (rest : List Nat)
    (hk : k.all key_legal = true)
    (hv : ∀ r, num_end r → plist_value n (plist_of v ++ r) = some (v, r))
    (hms : plist_members n (plist_of_members ms ++ rest) = some (ms, rest)) :
    plist_member (n + 1) (58 :: (k ++ 32 :: (plist_of v ++ (plist_of_members ms ++ rest))))
      = some (Members.cons k v ms, rest) := by
  obtain ⟨c, t, hh, hc⟩ := plist_of_members_head ms
  have hne : num_end (plist_of_members ms ++ rest) :=
    num_end_of_head _ rest c t hh (by rcases hc with h | h <;> subst h <;> decide)
  have hk1 : ∀ x ∈ k, key_legal x = true := by simpa [List.all_eq_true] using hk
  have e1 := takeWhile_append_stop (p := key_legal) k 32
    (plist_of v ++ (plist_of_members ms ++ rest)) hk1 (by decide)
  have e2 := dropWhile_append_stop (p := key_legal) k 32
    (plist_of v ++ (plist_of_members ms ++ rest)) hk1 (by decide)
  rw [plist_member, skipws_cons 58 _ (by decide)]
  simp only [if_true, e1, e2, plist_value_space, hv _ hne, hms]

mutual
theorem plist_value_of : ∀ (v : Value) (n : Nat) (rest : List Nat), v.size < n →
    v.keys_legal = true → num_end rest → plist_value n (plist_of v ++ rest) = some (v, rest)
  | .null, n, rest, h, _, _ => by
    obtain ⟨m, rfl⟩ : ∃ m, n = m + 1 := ⟨n - 1, by omega⟩
    have e : plist_of Value.null ++ rest = 110 :: (ascii "il" ++ rest) := rfl
    rw [e, plist_value, skipws_cons 110 _ (by decide)]
    simp only [if_true, expect_append, Option.map_some']
  | .bool true, n, rest, h, _, _ => by
    obtain ⟨m, rfl⟩ : ∃ m, n = m + 1 := ⟨n - 1, by omega⟩
    have e : plist_of (Value.bool true) ++ rest = 116 :: rest := rfl
    rw [e, plist_value, skipws_cons 116 _ (by decide)]
    simp only [show (116 : Nat) ≠ 110 by decide, if_false, if_true]
  | .bool false, n, rest, h, _, _ => by
    obtain ⟨m, rfl⟩ : ∃ m, n = m + 1 := ⟨n - 1, by omega⟩
    have e : plist_of (Value.bool false) ++ rest = 102 :: (ascii "alse" ++ rest) := rfl
    rw [e, plist_value, skipws_cons 102 _ (by decide)]
    simp only [show (102 : Nat) ≠ 110 by decide, show (102 : Nat) ≠ 116 by decide, if_false,
      if_true, expect_append, Option.map_some']
  | .int i, n, rest, h, _, hr => by
    obtain ⟨m, rfl⟩ : ∃ m, n = m + 1 := ⟨n - 1, by omega⟩
    obtain ⟨c, t, hc, hc1⟩ := number_int_head i
    have e : plist_of (Value.int i) = number_int i := by rw [plist_of]
    rw [e]
    have e2 : number_int i ++ rest = c :: (t ++ rest) := by rw [hc]; rfl
    rw [e2, plist_value_number m c _ hc1, ← e2]
    exact parse_number_int i rest hr
  | .float neg whole d ds, n, rest, h, _, hr => by
    obtain ⟨m, rfl⟩ : ∃ m, n = m + 1 := ⟨n - 1, by omega⟩
    obtain ⟨c, t, hc, hc1⟩ := number_float_head neg whole d ds
    have e : plist_of (Value.float neg whole d ds) = number_float neg whole d ds := by
      rw [plist_of]
    rw [e]
    have e2 : number_float neg whole d ds ++ rest = c :: (t ++ rest) := by rw [hc]; rfl
    rw [e2, plist_value_number m c _ hc1, ← e2]
    exact parse_number_float neg whole d ds rest hr
  | .str s, n, rest, h, _, _ => by
    obtain ⟨m, rfl⟩ : ∃ m, n = m + 1 := ⟨n - 1, by omega⟩
    have e : plist_of (Value.str s) = quoted s := by rw [plist_of]
    rw [e, scan_string_quoted, plist_value, skipws_cons 34 _ (by decide)]
    simp only [show (34 : Nat) ≠ 110 by decide, show (34 : Nat) ≠ 116 by decide,
      show (34 : Nat) ≠ 102 by decide, if_false, if_true, scan_string_escape, Option.map_some']
  | .arr .nil, n, rest, h, _, _ => by
    obtain ⟨m, rfl⟩ : ∃ m, n = m + 1 := ⟨n - 1, by omega⟩
    have e : plist_of (Value.arr Values.nil) ++ rest = 91 :: 93 :: rest := rfl
    rw [e, plist_value, skipws_cons 91 _ (by decide)]
    simp only [show (91 : Nat) ≠ 110 by decide, show (91 : Nat) ≠ 116 by decide,
      show (91 : Nat) ≠ 102 by decide, show (91 : Nat) ≠ 34 by decide, if_false, if_true,
      skipws_cons 93 _ (by decide), List.head?_cons, List.tail_cons]
  | .arr (.cons v vs), n, rest, h, hk, _ => by
    obtain ⟨m, rfl⟩ : ∃ m, n = m + 1 := ⟨n - 1, by omega⟩
    simp only [Value.size] at h
    have hpv := value_size_pos v
    have hpvs := values_size_pos vs
    simp only [Value.keys_legal, Values.keys_legal, Bool.and_eq_true] at hk
    obtain ⟨c, t, hc, hc1⟩ := plist_of_head v
    obtain ⟨b, u, hb, hb1⟩ := plist_of_elements_head vs
    have hf := value_head_facts hc1
    have hne : num_end (plist_of_elements vs ++ rest) :=
      num_end_of_head _ rest b u hb (by rcases hb1 with h | h <;> subst h <;> decide)
    have iv := plist_value_of v m (plist_of_elements vs ++ rest) (by omega) hk.1 hne
    have ie := plist_elements_of vs m rest (by omega) hk.2
    have e : plist_of (Value.arr (Values.cons v vs)) ++ rest
        = 91 :: (plist_of v ++ (plist_of_elements vs ++ rest)) := by
      rw [plist_of]; simp
    have e2 : skipws (plist_of v ++ (plist_of_elements vs ++ rest))
        = c :: (t ++ (plist_of_elements vs ++ rest)) := by
      rw [hc]; exact skipws_cons c _ hf.1
    rw [e, plist_value, skipws_cons 91 _ (by decide)]
    simp only [show (91 : Nat) ≠ 110 by decide, show (91 : Nat) ≠ 116 by decide,
      show (91 : Nat) ≠ 102 by decide, show (91 : Nat) ≠ 34 by decide, if_false, if_true, e2,
      List.head?_cons, Option.some.injEq, hf.2.1, iv, ie]
  | .obj .nil, n, rest, h, _, _ => by
    obtain ⟨m, rfl⟩ : ∃ m, n = m + 1 := ⟨n - 1, by omega⟩
    have e : plist_of (Value.obj Members.nil) ++ rest = 40 :: 41 :: rest := rfl
    rw [e, plist_value, skipws_cons 40 _ (by decide)]
    simp only [show (40 : Nat) ≠ 110 by decide, show (40 : Nat) ≠ 116 by decide,
      show (40 : Nat) ≠ 102 by decide, show (40 : Nat) ≠ 34 by decide,
      show (40 : Nat) ≠ 91 by decide, if_false, if_true,
      skipws_cons 41 _ (by decide), List.head?_cons, List.tail_cons]
  | .obj (.cons k v ms), n, rest, h, hk, _ => by
    obtain ⟨m, rfl⟩ : ∃ m, n = m + 1 := ⟨n - 1, by omega⟩
    simp only [Value.size] at h
    have hpv := value_size_pos v
    have hpms := members_size_pos ms
    simp only [Value.keys_legal, Members.keys_legal, Bool.and_eq_true] at hk
    obtain ⟨p, rfl⟩ : ∃ p, m = p + 1 := ⟨m - 1, by omega⟩
    have im := plist_members_of ms p rest (by omega) hk.2
    have hmem := plist_member_ok p k v ms rest hk.1.1
      (fun r hr => plist_value_of v p r (by omega) hk.1.2 hr) im
    have e : plist_of (Value.obj (Members.cons k v ms)) ++ rest
        = 40 :: 58 :: (k ++ 32 :: (plist_of v ++ (plist_of_members ms ++ rest))) := by
      rw [plist_of]; simp
    rw [e, plist_value, skipws_cons 40 _ (by decide)]
    simp only [show (40 : Nat) ≠ 110 by decide, show (40 : Nat) ≠ 116 by decide,
      show (40 : Nat) ≠ 102 by decide, show (40 : Nat) ≠ 34 by decide,
      show (40 : Nat) ≠ 91 by decide, if_false, if_true, skipws_cons 58 _ (by decide),
      List.head?_cons, Option.some.injEq, show (58 : Nat) ≠ 41 by decide, hmem]
theorem plist_elements_of : ∀ (vs : Values) (n : Nat) (rest : List Nat), vs.size < n →
    vs.keys_legal = true → plist_elements n (plist_of_elements vs ++ rest) = some (vs, rest)
  | .nil, n, rest, h, _ => by
    obtain ⟨m, rfl⟩ : ∃ m, n = m + 1 := ⟨n - 1, by omega⟩
    have e : plist_of_elements Values.nil ++ rest = 93 :: rest := rfl
    rw [e, plist_elements, skipws_cons 93 _ (by decide)]
    simp only [if_true]
  | .cons v vs, n, rest, h, hk => by
    obtain ⟨m, rfl⟩ : ∃ m, n = m + 1 := ⟨n - 1, by omega⟩
    simp only [Values.size] at h
    simp only [Values.keys_legal, Bool.and_eq_true] at hk
    have hv := value_size_pos v
    have hvs := values_size_pos vs
    obtain ⟨c, t, hc, hc1⟩ := plist_of_head v
    have hf := value_head_facts hc1
    obtain ⟨b, u, hb, hb1⟩ := plist_of_elements_head vs
    have hne : num_end (plist_of_elements vs ++ rest) :=
      num_end_of_head _ rest b u hb (by rcases hb1 with h | h <;> subst h <;> decide)
    have iv := plist_value_of v m (plist_of_elements vs ++ rest) (by omega) hk.1 hne
    have ie := plist_elements_of vs m rest (by omega) hk.2
    have e : plist_of_elements (Values.cons v vs) ++ rest
        = 32 :: (plist_of v ++ (plist_of_elements vs ++ rest)) := by
      rw [plist_of_elements]; simp
    have e2 : skipws (32 :: (plist_of v ++ (plist_of_elements vs ++ rest)))
        = c :: (t ++ (plist_of_elements vs ++ rest)) := by
      rw [skipws_space, hc]; exact skipws_cons c _ hf.1
    have e3 : c :: (t ++ (plist_of_elements vs ++ rest))
        = plist_of v ++ (plist_of_elements vs ++ rest) := by rw [hc]; rfl
    rw [e, plist_elements, e2]
    simp only [hf.2.1, if_false, e3, iv, ie]
theorem plist_members_of : ∀ (ms : Members) (n : Nat) (rest : List Nat), ms.size < n →
    ms.keys_legal = true → plist_members n (plist_of_members ms ++ rest) = some (ms, rest)
  | .nil, n, rest, h, _ => by
    obtain ⟨m, rfl⟩ : ∃ m, n = m + 1 := ⟨n - 1, by omega⟩
    have e : plist_of_members Members.nil ++ rest = 41 :: rest := rfl
    rw [e, plist_members, skipws_cons 41 _ (by decide)]
    simp only [if_true]
  | .cons k v ms, n, rest, h, hk => by
    obtain ⟨m, rfl⟩ : ∃ m, n = m + 1 := ⟨n - 1, by omega⟩
    simp only [Members.size] at h
    have hpv := value_size_pos v
    have hpms := members_size_pos ms
    simp only [Members.keys_legal, Bool.and_eq_true] at hk
    obtain ⟨p, rfl⟩ : ∃ p, m = p + 1 := ⟨m - 1, by omega⟩
    have im := plist_members_of ms p rest (by omega) hk.2
    have hmem := plist_member_ok p k v ms rest hk.1.1
      (fun r hr => plist_value_of v p r (by omega) hk.1.2 hr) im
    have e : plist_of_members (Members.cons k v ms) ++ rest
        = 32 :: 58 :: (k ++ 32 :: (plist_of v ++ (plist_of_members ms ++ rest))) := by
      rw [plist_of_members]; simp
    rw [e, plist_members, skipws_space, skipws_cons 58 _ (by decide)]
    simp only [show (58 : Nat) ≠ 41 by decide, if_false, hmem]
end

/-! ## The transcoders on canonical texts -/

theorem json_value_canonical (v : Value) (rest : List Nat) (hr : num_end rest) :
    json_value ((json_of v ++ rest).length + 1) (json_of v ++ rest) = some (v, rest) := by
  apply json_value_of v _ rest _ hr
  have := json_of_length v
  simp only [List.length_append]; omega

theorem plist_value_canonical (v : Value) (rest : List Nat) (hk : v.keys_legal = true)
    (hr : num_end rest) :
    plist_value ((plist_of v ++ rest).length + 1) (plist_of v ++ rest) = some (v, rest) := by
  apply plist_value_of v _ rest _ hk hr
  have := plist_of_length v
  simp only [List.length_append]; omega

theorem trailer_num_end (rest : List Nat) (h : trailer rest = true) : num_end rest := by
  intro c hc
  cases rest with
  | nil => simp at hc
  | cons b r =>
    simp only [List.head?_cons, Option.some.injEq] at hc
    subst hc
    simp only [trailer, List.all_cons, Bool.and_eq_true, Bool.or_eq_true, beq_iff_eq] at h
    rcases h.1 with h1 | h1
    · simp only [isspace, Bool.or_eq_true, beq_iff_eq, Bool.and_eq_true,
        decide_eq_true_eq] at h1
      refine ⟨?_, by omega⟩
      simp [isdigit]; omega
    · subst h1; decide

theorem tdat_json_value_of (v : Value) (rest : List Nat) (hk : v.keys_legal = true)
    (hr : trailer rest = true) :
    tdat_json_value (json_of v ++ rest) = { out := plist_of v, ok := true } := by
  unfold tdat_json_value
  rw [json_value_canonical v rest (trailer_num_end rest hr)]
  simp only [hk, hr, Bool.and_self, if_true]

theorem tdat_plist_value_of (v : Value) (rest : List Nat) (hk : v.keys_legal = true)
    (hr : trailer rest = true) :
    tdat_plist_value (plist_of v ++ rest) = { out := json_of v, ok := true } := by
  unfold tdat_plist_value
  rw [plist_value_canonical v rest hk (trailer_num_end rest hr)]
  simp only [hr, if_true]

theorem num_end_nil : num_end [] := by
  intro c h; simp at h

/-! ## The modelled transcoders emit no zero byte -/

theorem zero_not_mem_decimal (n : Nat) : 0 ∉ decimal n := by
  intro h
  have := (decimal_spec n).2.1 0 h
  omega

theorem hexdigit_pos (n : Nat) : hexdigit n ≠ 0 := by
  unfold hexdigit; split <;> omega

theorem zero_not_mem_escape : ∀ s : List Nat, 0 ∉ escape s
  | [] => by simp [escape]
  | c :: cs => by
    have ih := zero_not_mem_escape cs
    have h1 : 0 ∉ escape1 c := by
      unfold escape1
      have := hexdigit_pos (c / 16)
      have := hexdigit_pos (c % 16)
      split
      · simp
      · split
        · simp
        · split
          · simp; omega
          · simp; omega
    simp only [escape, List.mem_append, not_or]
    exact ⟨h1, ih⟩

theorem zero_not_mem_quoted (s : List Nat) : 0 ∉ quoted s := by
  have := zero_not_mem_escape s
  simp [quoted, this]

theorem zero_not_mem_number_int (i : Int) : 0 ∉ number_int i := by
  have := zero_not_mem_decimal i.natAbs
  unfold number_int
  split <;> simp [this]

theorem zero_not_mem_number_float (neg : Bool) (whole : Nat) (d : Fin 10) (ds : List (Fin 10)) :
    0 ∉ number_float neg whole d ds := by
  have h := zero_not_mem_decimal whole
  unfold number_float
  cases neg <;> simp [h, fdigit] <;> omega

mutual
theorem zero_not_mem_json_of : ∀ v : Value, 0 ∉ json_of v
  | .null => by decide
  | .bool true => by decide
  | .bool false => by decide
  | .int i => by rw [json_of]; exact zero_not_mem_number_int i
  | .float neg whole d ds => by rw [json_of]; exact zero_not_mem_number_float neg whole d ds
  | .str s => by rw [json_of]; exact zero_not_mem_quoted s
  | .arr .nil => by decide
  | .arr (.cons v vs) => by
    have h1 := zero_not_mem_json_of v
    have h2 := zero_not_mem_json_of_elements vs
    rw [json_of]; simp [h1, h2]
  | .obj .nil => by decide
  | .obj (.cons k v ms) => by
    have h1 := zero_not_mem_json_of v
    have h2 := zero_not_mem_json_of_members ms
    have h3 := zero_not_mem_quoted k
    rw [json_of]; simp [h1, h2, h3]
theorem zero_not_mem_json_of_elements : ∀ vs : Values, 0 ∉ json_of_elements vs
  | .nil => by decide
  | .cons v vs => by
    have h1 := zero_not_mem_json_of v
    have h2 := zero_not_mem_json_of_elements vs
    rw [json_of_elements]; simp [h1, h2]
theorem zero_not_mem_json_of_members : ∀ ms : Members, 0 ∉ json_of_members ms
  | .nil => by decide
  | .cons k v ms => by
    have h1 := zero_not_mem_json_of v
    have h2 := zero_not_mem_json_of_members ms
    have h3 := zero_not_mem_quoted k
    rw [json_of_members]; simp [h1, h2, h3]
end

theorem zero_not_mem_key (k : List Nat) (hk : k.all key_legal = true) : 0 ∉ k := by
  intro h
  have := (List.all_eq_true.1 hk) 0 h
  simp [key_legal] at this

mutual
theorem zero_not_mem_plist_of : ∀ v : Value, v.keys_legal = true → 0 ∉ plist_of v
  | .null, _ => by decide
  | .bool true, _ => by decide
  | .bool false, _ => by decide
  | .int i, _ => by rw [plist_of]; exact zero_not_mem_number_int i
  | .float neg whole d ds, _ => by rw [plist_of]; exact zero_not_mem_number_float neg whole d ds
  | .str s, _ => by rw [plist_of]; exact zero_not_mem_quoted s
  | .arr .nil, _ => by decide
  | .arr (.cons v vs), hk => by
    simp only [Value.keys_legal, Values.keys_legal, Bool.and_eq_true] at hk
    have h1 := zero_not_mem_plist_of v hk.1
    have h2 := zero_not_mem_plist_of_elements vs hk.2
    rw [plist_of]; simp [h1, h2]
  | .obj .nil, _ => by decide
  | .obj (.cons k v ms), hk => by
    simp only [Value.keys_legal, Members.keys_legal, Bool.and_eq_true] at hk
    have h1 := zero_not_mem_plist_of v hk.1.2
    have h2 := zero_not_mem_plist_of_members ms hk.2
    have h3 := zero_not_mem_key k hk.1.1
    rw [plist_of]; simp [h1, h2, h3]
theorem zero_not_mem_plist_of_elements : ∀ vs : Values, vs.keys_legal = true →
    0 ∉ plist_of_elements vs
  | .nil, _ => by decide
  | .cons v vs, hk => by
    simp only [Values.keys_legal, Bool.and_eq_true] at hk
    have h1 := zero_not_mem_plist_of v hk.1
    have h2 := zero_not_mem_plist_of_elements vs hk.2
    rw [plist_of_elements]; simp [h1, h2]
theorem zero_not_mem_plist_of_members : ∀ ms : Members, ms.keys_legal = true →
    0 ∉ plist_of_members ms
  | .nil, _ => by decide
  | .cons k v ms, hk => by
    simp only [Members.keys_legal, Bool.and_eq_true] at hk
    have h1 := zero_not_mem_plist_of v hk.1.2
    have h2 := zero_not_mem_plist_of_members ms hk.2
    have h3 := zero_not_mem_key k hk.1.1
    rw [plist_of_members]; simp [h1, h2, h3]
end

theorem tdat_json_value_zero_free (src : List Nat) : 0 ∉ (tdat_json_value src).out := by
  unfold tdat_json_value
  split
  · rename_i v rest _
    by_cases h : (trailer rest && v.keys_legal) = true
    · simp only [h, if_true]
      exact zero_not_mem_plist_of v (by simp at h; exact h.2)
    · simp only [h, if_false]; simp
  · simp

theorem tdat_plist_value_zero_free (src : List Nat) : 0 ∉ (tdat_plist_value src).out := by
  unfold tdat_plist_value
  split
  · rename_i v rest _
    by_cases h : trailer rest = true
    · simp only [h, if_true]
      exact zero_not_mem_json_of v
    · simp only [h, if_false]; simp
  · simp

/-! ## The claims -/

set_option maxRecDepth 100000

/-- C1. For every text handed to `tdlib_loop`, after any earlier receives, and every message
handed to `on_error_cb`, the bytes written to standard output are `event ` (resp. `error `),
the decimal count N, a newline, the payload and a newline.  The payload is the forward
transcoder's output for the text, as the C string the destination buffer holds (all of the
output when it has no zero byte), and N is the number of payload bytes written.  The
Forward Transcoder modelled from the spec never emits a zero byte: with it the payload is
the whole output and N its length. -/
theorem event_frame_length_exact (json : transcoder) (rs : List (Option (List Nat)))
    (text : List Nat) :
    (tdlib_loop json (rs ++ [some text])).out
        = (tdlib_loop json rs).out
          ++ (ascii "event " ++ decimal (cstr (json (cstr text)).out).length ++ [10]
            ++ cstr (json (cstr text)).out ++ [10])
      ∧ on_error_cb json text
        = ascii "error " ++ decimal (cstr (json (cstr text)).out).length ++ [10]
            ++ cstr (json (cstr text)).out ++ [10]
      ∧ (0 ∉ (json (cstr text)).out → cstr (json (cstr text)).out = (json (cstr text)).out)
      ∧ (tdlib_loop tdat_json_value (rs ++ [some text])).out
        = (tdlib_loop tdat_json_value rs).out
          ++ (ascii "event " ++ decimal (tdat_json_value (cstr text)).out.length ++ [10]
            ++ (tdat_json_value (cstr text)).out ++ [10])
      ∧ on_error_cb tdat_json_value text
        = ascii "error " ++ decimal (tdat_json_value (cstr text)).out.length ++ [10]
            ++ (tdat_json_value (cstr text)).out ++ [10] := by
  obtain ⟨h1, h2, -⟩ := tdlib_loop_inv json rs
  obtain ⟨g1, g2, -⟩ := tdlib_loop_inv tdat_json_value rs
  have hz := cstr_eq_self (tdat_json_value_zero_free (cstr text))
  refine ⟨?_, on_error_cb_eq json text, cstr_eq_self, ?_, ?_⟩
  · rw [tdlib_loop_snoc]
    exact tdlib_iter_out json _ text h1 h2
  · rw [tdlib_loop_snoc]
    have := tdlib_iter_out tdat_json_value _ text g1 g2
    rw [hz] at this
    exact this
  · have := on_error_cb_eq tdat_json_value text
    rw [hz] at this
    exact this

/-- C1, the documented example: the Forward Transcoder turns the library's text of the
`updateAuthorizationState` event into the 105-byte plist, which is framed as `event 105`. -/
theorem event_frame_length_exact_witness :
    (tdlib_loop tdat_json_value [some example_event_json]).out
      = ascii "event 105\n" ++ example_event_plist ++ [10] := by
  have h := (event_frame_length_exact tdat_json_value [] example_event_json).2.2.2.1
  have e : (tdat_json_value (cstr example_event_json)).out = example_event_plist := by
    decide
  rw [e] at h
  exact h.trans (by decide)

/-- C2 fails on the code.  On the input `send 0` with its empty payload, followed by a
second frame, `stdin_loop` asks `tdat_ensure` for 0 bytes and reads 1 byte into a source
buffer of capacity 0: the byte is stored outside the storage, the reverse transcoder is
called for neither frame, and the second frame is left unread.  The same happens in any
pass that finds a well-formed frame whose length equals the capacity of the reset source
buffer.  In a state whose source buffer has more capacity than every payload is long, the
passes call the reverse transcoder once per frame, in order, on the payload followed by
the framing newline, and leave exactly the bytes after the frames unread, whatever the
payloads and the commands. -/
theorem stdin_frame_store_overruns (plist : transcoder) :
    (∃ s, stdin_loop plist (ascii "send 0\n\nsend 2\nxy\n") = some s ∧ s.fault = true
        ∧ s.calls = [] ∧ s.stdin = ascii "send 2\nxy\n"
        ∧ s.plist_src.end_ = 1 ∧ s.plist_src.cap = 0)
      ∧ (∀ (s : stdin_state) (f : in_frame) (rest : List Nat), f.wf → s.plist_src.end_ = 0 →
          f.payload.length = s.plist_src.cap → s.stdin = f.bytes ++ rest →
          ∃ s1, stdin_iter plist s = .exit s1 ∧ s1.fault = true ∧ s1.calls = s.calls
            ∧ s1.plist_src.end_ = s1.plist_src.cap + 1)
      ∧ ∀ (fs : List in_frame) (s : stdin_state) (rest : List Nat),
          (∀ f ∈ fs, f.wf ∧ f.payload.length < s.plist_src.cap) → s.plist_src.end_ = 0 →
          s.json_dst.end_ = 0 → s.stdin = stream fs ++ rest →
          ∃ s1, stdin_passes plist fs.length s = some s1 ∧ s1.stdin = rest
            ∧ s1.calls = s.calls ++ fs.map (fun f => f.payload ++ [10])
            ∧ s1.fault = s.fault := by
  refine ⟨?_, ?_, ?_⟩
  · obtain ⟨s, h1, h2, h3, -, h5, h6, h7⟩ :=
      stdin_run_overrun plist ⟨ascii "send", []⟩ (ascii "send 2\nxy\n") (by decide) rfl
    exact ⟨s, h1, h2, h3, h5, h6, h7⟩
  · intro s f rest hf hs hcap hin
    obtain ⟨s1, h1, h2, h3, -, -, h6, h7⟩ := stdin_iter_overrun plist s f rest hf hs hcap hin
    exact ⟨s1, h1, h2, h3, by rw [h6, h7]⟩
  · intro fs s rest hwf hs hd hin
    obtain ⟨s1, h1, h2, h3, -, -, -, -, -, -, h10⟩ :=
      stdin_passes_frames plist fs s rest hwf hs hd hin
    exact ⟨s1, h1, h2, h3, h10⟩

/-- C2 where the store fits: with a source buffer of capacity 8 and a stream of three
frames, a `send` whose payload is not a plist, an unknown command and an empty `send`,
followed by an unfinished line, three passes make three calls of the reverse transcoder,
one per frame, and leave the unfinished line unread. -/
theorem stdin_frame_store_overruns_witness :
    ∃ s1, stdin_passes (failing []) 3
          { stdin_init (ascii "send 2\n((\nquit 3\nabc\nsend 0\n\nsen") with
            plist_src := { TDAT_INIT with cap := 8 } } = some s1
      ∧ s1.stdin = ascii "sen" ∧ s1.calls = [ascii "((\n", ascii "abc\n", ascii "\n"]
      ∧ s1.fault = false :=
  (stdin_frame_store_overruns (failing [])).2.2
    [⟨ascii "send", ascii "(("⟩, ⟨ascii "quit", ascii "abc"⟩, ⟨ascii "send", []⟩]
    { stdin_init (ascii "send 2\n((\nquit 3\nabc\nsend 0\n\nsen") with
      plist_src := { TDAT_INIT with cap := 8 } }
    (ascii "sen") (by decide) rfl rfl (by decide)

/-- C3 fails on the code.  The frame `send 0` with its empty payload, first on the input,
has the command `send`, and nothing is forwarded to the library: the pass stores the
framing newline outside the source buffer, of capacity 0, and the run ends there.  The
same holds in any pass for a well-formed `send` frame whose length equals the capacity of
the reset source buffer.  The other direction holds: for a well-formed frame with any
other command a pass forwards nothing, however it ends.  In a state whose source buffer
has more capacity than the payload is long, a pass forwards a text exactly when the
command is `send`, and the text is the reverse transcoder's output for the payload and
its newline, as a C string; with the Reverse Transcoder modelled from the spec, which
emits no zero byte, it is the whole output. -/
theorem send_frame_not_forwarded (plist : transcoder) :
    (∃ s, stdin_loop plist (ascii "send 0\n\n") = some s ∧ s.fault = true ∧ s.sent = [])
      ∧ (∀ (s : stdin_state) (f : in_frame) (rest : List Nat), f.wf → f.cmd = ascii "send" →
          s.plist_src.end_ = 0 → f.payload.length = s.plist_src.cap →
          s.stdin = f.bytes ++ rest →
          ∃ s1, stdin_iter plist s = .exit s1 ∧ s1.fault = true ∧ s1.sent = s.sent)
      ∧ (∀ (s : stdin_state) (f : in_frame) (rest : List Nat), f.wf → f.cmd ≠ ascii "send" →
          s.stdin = f.bytes ++ rest → (stdin_iter plist s).state.sent = s.sent)
      ∧ (∀ (s : stdin_state) (f : in_frame) (rest : List Nat), f.wf →
          s.plist_src.end_ = 0 → s.json_dst.end_ = 0 → f.payload.length < s.plist_src.cap →
          s.stdin = f.bytes ++ rest →
          ∃ s1, stdin_iter plist s = .next s1
            ∧ (f.cmd = ascii "send" → s1.sent = s.sent ++ [cstr (plist (f.payload ++ [10])).out])
            ∧ (f.cmd ≠ ascii "send" → s1.sent = s.sent))
      ∧ ∀ payload : List Nat,
          cstr (tdat_plist_value (payload ++ [10])).out = (tdat_plist_value (payload ++ [10])).out := by
  refine ⟨?_, ?_, ?_, ?_, ?_⟩
  · obtain ⟨s, h1, h2, -, h4, -⟩ :=
      stdin_run_overrun plist ⟨ascii "send", []⟩ [] (by decide) rfl
    exact ⟨s, h1, h2, h4⟩
  · intro s f rest hf _ hs hcap hin
    obtain ⟨s1, h1, h2, -, h4, -⟩ := stdin_iter_overrun plist s f rest hf hs hcap hin
    exact ⟨s1, h1, h2, h4⟩
  · intro s f rest hf hc hin
    exact stdin_iter_other_command plist s f rest hf hc hin
  · intro s f rest hf hs hd hcap hin
    obtain ⟨s1, h1, -, -, h4, -⟩ := stdin_iter_frame plist s f rest hf hs hd hcap hin
    refine ⟨s1, h1, ?_, ?_⟩
    · intro hc; rw [h4, if_pos hc]
    · intro hc; rw [h4, if_neg hc]
  · intro payload
    exact cstr_eq_self (tdat_plist_value_zero_free _)

/-- C3 where the store fits: with a source buffer of capacity 128, the documented
`send 109` frame is forwarded as the object the Reverse Transcoder makes of its plist. -/
theorem send_frame_not_forwarded_witness :
    ∃ s1, stdin_iter tdat_plist_value
          { stdin_init (ascii "send 109\n" ++ example_send_plist ++ ascii "\n") with
            plist_src := { TDAT_INIT with cap := 128 } } = .next s1
      ∧ s1.sent = [example_send_json] := by
  obtain ⟨s1, h1, h2, -⟩ := (send_frame_not_forwarded tdat_plist_value).2.2.2.1
    { stdin_init (ascii "send 109\n" ++ example_send_plist ++ ascii "\n") with
      plist_src := { TDAT_INIT with cap := 128 } }
    ⟨ascii "send", example_send_plist⟩ [] (by decide) rfl rfl (by decide) (by decide)
  exact ⟨s1, h1, (h2 rfl).trans (by decide)⟩

/-- C5 as stated fails in the codec modelled from the spec: the object with the one key
`a b` has no keyword form, the Forward Transcoder fails on its text (the spec's
EncodingError) and emits nothing, and the Reverse Transcoder applied to that yields no
value. -/
theorem round_trip_fails_on_illegal_key :
    tdat_json_value (json_of example_bad_key) = { out := [], ok := false }
      ∧ tdat_plist_value (tdat_json_value (json_of example_bad_key)).out
          = { out := [], ok := false }
      ∧ json_of example_bad_key = ascii "\x7b\"a b\":null\x7d" := by
  decide

/-- C5, amended.  For every value whose object keys are made of characters legal in a
keyword, followed in the source buffer by white space and terminators only: the Forward
Transcoder turns the value's source-format text into its plist text, the Reverse
Transcoder turns that back into the value's source-format text, and reading this text
gives the value itself, with the kind of every node and the order of the keys.  The same
holds for every source text the Forward Transcoder reads the value from. -/
theorem transcode_round_trip (v : Value) (rest1 rest2 : List Nat) (hk : v.keys_legal = true)
    (h1 : trailer rest1 = true) (h2 : trailer rest2 = true) :
    tdat_json_value (json_of v ++ rest1) = { out := plist_of v, ok := true }
      ∧ tdat_plist_value ((tdat_json_value (json_of v ++ rest1)).out ++ rest2)
          = { out := json_of v, ok := true }
      ∧ json_value ((json_of v).length + 1) (json_of v) = some (v, [])
      ∧ ∀ src r, json_value (src.length + 1) src = some (v, r) → trailer r = true →
          tdat_plist_value ((tdat_json_value src).out ++ rest2)
            = { out := json_of v, ok := true } := by
  have e1 := tdat_json_value_of v rest1 hk h1
  have e2 := tdat_plist_value_of v rest2 hk h2
  refine ⟨e1, ?_, ?_, ?_⟩
  · rw [e1]; exact e2
  · have := json_value_canonical v [] num_end_nil
    simpa using this
  · intro src r hs hr
    have : tdat_json_value src = { out := plist_of v, ok := true } := by
      unfold tdat_json_value
      rw [hs]; simp only [hk, hr, Bool.and_self, if_true]
    rw [this]; exact e2

/-- C5 amended, at the documented `send 109` example: the plist, followed by the framing
newline, transcodes to the object whose `@extra` array holds the string `5` and the float
7.0, and the Forward Transcoder gives the plist back. -/
theorem transcode_round_trip_witness :
    tdat_plist_value (example_send_plist ++ [10]) = { out := example_send_json, ok := true }
      ∧ tdat_json_value example_send_json = { out := example_send_plist, ok := true }
      ∧ json_value (example_send_json.length + 1) example_send_json
          = some (example_send_value, []) := by
  have hj : json_of example_send_value = example_send_json := by decide
  have hp : plist_of example_send_value = example_send_plist := by decide
  have h := transcode_round_trip example_send_value [] [10] (by decide) (by decide) (by decide)
  rw [hj, hp] at h
  simp only [List.append_nil] at h
  have e := h.1
  have e2 := h.2.1
  rw [e] at e2
  exact ⟨e2, e, h.2.2.1⟩

/-- C6 fails on the code.  On a fresh buffer the frame `send 0` leaves `end_ = 1` with
capacity 0, the frame `send 5` leaves `end_ = 6` with capacity 5, and on any reset buffer a
frame whose length equals the capacity leaves `end_` one past the capacity: `tdat_ensure`
is asked for `cmdsz` bytes and `cmdsz + 1` are read. -/
theorem stdin_fill_exceeds_capacity :
    ((stdin_fill TDAT_INIT 0 (ascii "\n")).1.end_ = 1
        ∧ (stdin_fill TDAT_INIT 0 (ascii "\n")).1.cap = 0)
      ∧ ((stdin_fill TDAT_INIT 5 (ascii "hello\n")).1.end_ = 6
        ∧ (stdin_fill TDAT_INIT 5 (ascii "hello\n")).1.cap = 5)
      ∧ ∀ (d : telega_dat) (inp : List Nat), d.end_ = 0 → d.cap < SIZE_MAX →
          d.cap + 1 ≤ inp.length →
          (stdin_fill d d.cap inp).1.end_ = d.cap + 1 ∧ (stdin_fill d d.cap inp).1.cap = d.cap := by
  refine ⟨by decide, by decide, ?_⟩
  intro d inp h0 hc hl
  have hmod : (d.cap + 1) % 2 ^ 64 = d.cap + 1 := by
    apply Nat.mod_eq_of_lt; simp [SIZE_MAX] at hc; omega
  have hlen : (inp.take (d.cap + 1)).length = d.cap + 1 := by
    rw [List.length_take]; omega
  have hens : tdat_ensure d d.cap = d := by
    unfold tdat_ensure; rw [h0]; simp
  unfold stdin_fill
  simp only [hmod, hlen, hens, ne_eq, not_true_eq_false, if_false, and_self]

/-- C7 as stated fails: for a transcoder output with a zero byte in it (`a`, 0, `b`) the
frame printed is `event 1`, while the end offset after the terminator, less the
terminator, is 3. -/
theorem event_length_not_end_offset :
    (tdlib_loop (fun _ => { out := [97, 0, 98], ok := true }) [some (ascii "x")]).out
        = ascii "event 1\na\n"
      ∧ (event_dst (fun _ => { out := [97, 0, 98], ok := true }) [] (ascii "x")).end_ - 1 = 3
      ∧ strlen (event_dst (fun _ => { out := [97, 0, 98], ok := true }) [] (ascii "x")).data
          ≠ (event_dst (fun _ => { out := [97, 0, 98], ok := true }) [] (ascii "x")).end_ - 1 := by
  decide

/-- C7, amended.  The LENGTH of every `event` and `error` frame is `strlen` of the
destination buffer's data, a scan of the output up to its first zero byte.  It is at most
the end offset after the terminator less the terminator byte, which is the length of the
transcoder's output, and equal to it exactly when that output has no zero byte, as is the
case for the Forward Transcoder modelled from the spec. -/
theorem event_length_is_strlen (json : transcoder) (rs : List (Option (List Nat)))
    (text : List Nat) :
    ((tdlib_loop json (rs ++ [some text])).out
        = (tdlib_loop json rs).out
          ++ (ascii "event " ++ decimal (strlen (event_dst json rs text).data) ++ [10]
            ++ cstr (event_dst json rs text).data ++ [10])
      ∧ (event_dst json rs text).end_ - 1 = (json (cstr text)).out.length
      ∧ strlen (event_dst json rs text).data ≤ (event_dst json rs text).end_ - 1
      ∧ (strlen (event_dst json rs text).data = (event_dst json rs text).end_ - 1
          ↔ 0 ∉ (json (cstr text)).out))
    ∧ (on_error_cb json text
        = ascii "error " ++ decimal (strlen (error_dst json text).data) ++ [10]
            ++ cstr (error_dst json text).data ++ [10]
      ∧ (error_dst json text).end_ - 1 = (json (cstr text)).out.length
      ∧ strlen (error_dst json text).data ≤ (error_dst json text).end_ - 1
      ∧ (strlen (error_dst json text).data = (error_dst json text).end_ - 1
          ↔ 0 ∉ (json (cstr text)).out))
    ∧ strlen (event_dst tdat_json_value rs text).data
        = (event_dst tdat_json_value rs text).end_ - 1 := by
  have main : ∀ json : transcoder,
      (strlen (event_dst json rs text).data = (event_dst json rs text).end_ - 1
          ↔ 0 ∉ (json (cstr text)).out)
        ∧ (event_dst json rs text).end_ - 1 = (json (cstr text)).out.length
        ∧ strlen (event_dst json rs text).data ≤ (event_dst json rs text).end_ - 1 := by
    intro json
    obtain ⟨h1, h2, -⟩ := tdlib_loop_inv json rs
    have c1 := convert_text_cstr json _ _ text h1 h2
    have e1 := convert_text_end json _ _ text h1 h2
    refine ⟨?_, ?_, ?_⟩
    · simp only [event_dst, strlen, c1, e1]
      rw [← cstr_length_eq_iff]; simp
    · simp only [event_dst, e1]; omega
    · simp only [event_dst, strlen, c1, e1]
      have := cstr_length_le (json (cstr text)).out; omega
  have c2 := convert_text_cstr json TDAT_INIT TDAT_INIT text rfl rfl
  have e2 := convert_text_end json TDAT_INIT TDAT_INIT text rfl rfl
  obtain ⟨m1, m2, m3⟩ := main json
  refine ⟨⟨?_, m2, m3, m1⟩, ⟨?_, ?_, ?_, ?_⟩, ?_⟩
  · rw [tdlib_loop_snoc]; rfl
  · rfl
  · simp only [error_dst, e2]; omega
  · simp only [error_dst, strlen, c2, e2]
    have := cstr_length_le (json (cstr text)).out; omega
  · simp only [error_dst, strlen, c2, e2]
    rw [← cstr_length_eq_iff]; simp
  · exact (main tdat_json_value).1.2 (tdat_json_value_zero_free _)

/-- C8 as stated fails: started with `-j` and then `-h`, `main` prints the usage text and
exits without reading standard input or calling a transcoder. -/
theorem main_help_after_parse_flag :
    (main tdat_json_value (failing []) (ascii "telega-server")
        [{ ch := 'j', optarg := [] }, { ch := 'h', optarg := [] }] [example_event_json]).conv = []
      ∧ (main tdat_json_value (failing []) (ascii "telega-server")
        [{ ch := 'j', optarg := [] }, { ch := 'h', optarg := [] }] [example_event_json]).stdout
          = usage (ascii "telega-server") := by
  decide

/-- C8, amended.  When the options are `-v`, `-l`, `-j` and `-p` only and `o` is the last
`-j` or `-p` among them, `main` makes exactly one transcoder call, the forward transcoder
for `-j` and the reverse one for `-p`, on a source buffer holding all of standard input in
order and one zero byte; it writes that call's result (the C string in the destination
buffer) and one newline, with no header, and returns 0 without creating the library client,
starting the library thread or running `stdin_loop`.  With the transcoders modelled from
the spec, which emit no zero byte, what is written is the whole result and the newline. -/
theorem main_standalone_conversion (json plist : transcoder) (prog : List Nat)
    (pre post : List getopt_ret) (o : getopt_ret) (reads : List (List Nat))
    (hpre : ∀ x ∈ pre, x.ch = 'v' ∨ x.ch = 'l' ∨ x.ch = 'j' ∨ x.ch = 'p')
    (ho : o.ch = 'j' ∨ o.ch = 'p') (hpost : ∀ x ∈ post, x.ch = 'v' ∨ x.ch = 'l')
    (hreads : ∀ c ∈ reads, 1 ≤ c.length ∧ c.length ≤ RDSIZE) :
    ((main json plist prog (pre ++ o :: post) reads).conv
        = [(if o.ch = 'j' then direction.json_value else direction.plist_value,
            reads.flatten ++ [0])]
      ∧ (main json plist prog (pre ++ o :: post) reads).stdout
        = cstr ((if o.ch = 'j' then json else plist) (reads.flatten ++ [0])).out ++ [10]
      ∧ (main json plist prog (pre ++ o :: post) reads).status = 0
      ∧ (main json plist prog (pre ++ o :: post) reads).server = none
      ∧ td_call.json_client_create ∉ (main json plist prog (pre ++ o :: post) reads).td
      ∧ td_call.pthread_create_tdlib_loop ∉ (main json plist prog (pre ++ o :: post) reads).td)
    ∧ (main tdat_json_value tdat_plist_value prog (pre ++ o :: post) reads).stdout
        = ((if o.ch = 'j' then tdat_json_value else tdat_plist_value)
            (reads.flatten ++ [0])).out ++ [10] := by
  have general : ∀ json plist : transcoder,
      (main json plist prog (pre ++ o :: post) reads).conv
        = [(if o.ch = 'j' then direction.json_value else direction.plist_value,
            reads.flatten ++ [0])]
      ∧ (main json plist prog (pre ++ o :: post) reads).stdout
        = cstr ((if o.ch = 'j' then json else plist) (reads.flatten ++ [0])).out ++ [10]
      ∧ (main json plist prog (pre ++ o :: post) reads).status = 0
      ∧ (main json plist prog (pre ++ o :: post) reads).server = none
      ∧ td_call.json_client_create ∉ (main json plist prog (pre ++ o :: post) reads).td
      ∧ td_call.pthread_create_tdlib_loop
          ∉ (main json plist prog (pre ++ o :: post) reads).td := by
    intro json plist
    obtain ⟨st1, h1, h2, h3⟩ := main_getopt_last pre post o hpre ho hpost
    have hsrc := parse_source_content reads hreads
    have hmode : st1.parse_mode ≠ 0 := by
      rw [h2]; split <;> decide
    have hj : (st1.parse_mode = PARSE_MODE_JSON) ↔ o.ch = 'j' := by
      rw [h2]; split
      · simp [*]
      · simp [*]; decide
    have hmain : main json plist prog (pre ++ o :: post) reads
        = { stdout := (parse_stdin json plist st1.parse_mode reads).stdout, status := 0,
            td := st1.td, conv := (parse_stdin json plist st1.parse_mode reads).conv,
            server := none } := by
      unfold main
      rw [h1]
      simp only [Bool.false_eq_true, if_false, hmode, ne_eq, not_false_eq_true, if_true]
    rw [hmain, parse_stdin_eq, hsrc]
    refine ⟨?_, ?_, rfl, rfl, ?_, ?_⟩
    · by_cases hc : o.ch = 'j'
      · simp [hj.2 hc, hc]
      · simp [mt hj.1 hc, hc]
    · by_cases hc : o.ch = 'j'
      · simp [hj.2 hc, hc]
      · simp [mt hj.1 hc, hc]
    · intro hm; have := h3 _ hm; simp [td_call.is_log] at this
    · intro hm; have := h3 _ hm; simp [td_call.is_log] at this
  refine ⟨general json plist, ?_⟩
  rw [(general tdat_json_value tdat_plist_value).2.1]
  by_cases hc : o.ch = 'j'
  · simp only [hc, if_true]
    rw [cstr_eq_self (tdat_json_value_zero_free _)]
  · simp only [hc, if_false]
    rw [cstr_eq_self (tdat_plist_value_zero_free _)]

/-- C8 amended, at `-p -v 3 -j -l log` with the documented event on standard input in two
reads: the last of `-j` and `-p` is `-j`, the Forward Transcoder is called once on the
whole input and a zero byte, and the plist and a newline are written. -/
theorem main_standalone_conversion_witness :
    (main tdat_json_value tdat_plist_value (ascii "telega-server")
        ([{ ch := 'p', optarg := [] }, { ch := 'v', optarg := ascii "3" }]
          ++ { ch := 'j', optarg := [] } :: [{ ch := 'l', optarg := ascii "log" }])
        [example_event_json, ascii "\n"]).stdout
      = example_event_plist ++ [10] := by
  have h := (main_standalone_conversion tdat_json_value tdat_plist_value (ascii "telega-server")
    [{ ch := 'p', optarg := [] }, { ch := 'v', optarg := ascii "3" }]
    [{ ch := 'l', optarg := ascii "log" }] { ch := 'j', optarg := [] }
    [example_event_json, ascii "\n"] (by decide) (by decide) (by decide) (by decide)).2
  exact h.trans (by decide)

/-- C10. In the read loop of `parse_stdin`, for reads that each return between 1 and 1024
bytes: before every read the source buffer has at least 1024 free bytes past `end_`; after
every `src.end += rlen` it has `end_ ≤ cap` and its first `end_` bytes are the chunks read
so far, in order; when the loop stops they are all the chunks, and after the terminator is
appended they are the chunks followed by one zero byte, still within the capacity. -/
theorem parse_read_within_capacity (reads : List (List Nat))
    (hlen : ∀ c ∈ reads, 1 ≤ c.length ∧ c.length ≤ RDSIZE) :
    (∀ (pre post : List (List Nat)) (c : List Nat), reads = pre ++ c :: post →
        (parse_read_loop (tdat_ensure TDAT_INIT RDSIZE) pre).end_ + RDSIZE
            ≤ (parse_read_loop (tdat_ensure TDAT_INIT RDSIZE) pre).cap
          ∧ (parse_read (parse_read_loop (tdat_ensure TDAT_INIT RDSIZE) pre) c).end_
            ≤ (parse_read (parse_read_loop (tdat_ensure TDAT_INIT RDSIZE) pre) c).cap
          ∧ (parse_read (parse_read_loop (tdat_ensure TDAT_INIT RDSIZE) pre) c).content
            = pre.flatten ++ c)
      ∧ (parse_read_loop (tdat_ensure TDAT_INIT RDSIZE) reads).end_ + RDSIZE
          ≤ (parse_read_loop (tdat_ensure TDAT_INIT RDSIZE) reads).cap
      ∧ (parse_read_loop (tdat_ensure TDAT_INIT RDSIZE) reads).content = reads.flatten
      ∧ (parse_source reads).content = reads.flatten ++ [0]
      ∧ (parse_source reads).end_ ≤ (parse_source reads).cap := by
  obtain ⟨i1, i2, i3⟩ := parse_init_inv
  obtain ⟨q1, q2, q3⟩ := parse_read_loop_inv reads _ hlen i1 i2
  refine ⟨?_, q1, by rw [q3, i3]; simp, parse_source_content reads hlen, ?_⟩
  · intro pre post c hr
    have hpre : ∀ x ∈ pre, 1 ≤ x.length ∧ x.length ≤ RDSIZE :=
      fun x hx => hlen x (by rw [hr]; simp [hx])
    have hc : c.length ≤ RDSIZE := (hlen c (by rw [hr]; simp)).2
    obtain ⟨p1, p2, p3⟩ := parse_read_loop_inv pre _ hpre i1 i2
    obtain ⟨r1, -, r3⟩ := parse_read_step _ c p1 p2 hc
    refine ⟨p1, r1, ?_⟩
    rw [r3, p3, i3]; simp
  · exact tdat_append_le_cap _ _

/-- C10 at three reads of 3, 1024 and 1 bytes. -/
theorem parse_read_within_capacity_witness :
    (parse_source [ascii "abc", List.replicate 1024 120, ascii "\n"]).content
      = [ascii "abc", List.replicate 1024 120, ascii "\n"].flatten ++ [0] :=
  (parse_read_within_capacity [ascii "abc", List.replicate 1024 120, ascii "\n"]
    (by decide)).2.2.2.1

end Telega
